import Mathlib

/-!
A shallow embedding of `include/itertools.hpp`.

The header layers eager adapters (`map`, `filter`, `map_inplace`,
`filter_inplace`, `reduce`, `find_if`) over containers that expose `begin()`,
`end()`, `size()` and `erase(it)`.

Modelling conventions.

* `std::vector<T>` is a `List T`; its cursor is the offset from `begin()`.
  `std::vector<bool>` is `List Bool`: the header treats its cursors apart in
  `select_access_type_for`, which the class of the same name records.
* A cursor type carries `operator++`, `operator==` and `operator!=`
  (class `Iterator`); a container shape carries `begin`, `end`, `size`,
  `erase`, the read `*it` and the writes through `*it` (class `Container`).
  Reading or writing through a cursor needs the storage, so both take the
  container; they return `none` where the source has undefined behaviour
  (a cursor that is not dereferenceable).
* The two sides of a `zipper` are separate storage.
* Every source loop is a recursive function with a fuel argument, one unit
  per evaluation of the loop condition; `none` means that the fuel ran out
  or that undefined behaviour was reached.
* `throw std::runtime_error(msg)` is `Except.error msg`.
* The bounds of a `range_impl<T>` are integers, and the range records the width of
  the signed integer type `T` in `bits`. `range_impl::size` subtracts in `T` (in
  `int` when `T` is narrower), where a result that does not fit wraps around
  (`wrap_T`, two's complement, as the compiled code does), and converts to
  `size_t`, which is reduction modulo `2^64`. `range_T` and `range1_T`
  are `range(begin, end)` and `range(end)` at a `T` of a given width (`INT_BITS`
  for `int`); `range` and `range1` are the same at a 64-bit `T` such as
  `std::size_t`, the type of `vs.size()`.
* `std::unordered_map<K, V>` is a list of entries with at most one entry for a key,
  observed through `find` and `size`; a container constructed from two cursors takes
  the values between them in order (class `range_constructible`).
-/

set_option linter.dupNamespace false
set_option linter.unusedSectionVars false

deriving instance DecidableEq for Except

namespace itertools

/-! ## Cursors and container shapes -/

/-- Operations of a forward cursor: `operator++`, `operator==`, `operator!=`. -/
class Iterator (I : Type) where
  incr : I → I
  eq : I → I → Bool
  ne : I → I → Bool

/-- The cursor types of the header all define `a != b` as `!(a == b)`. -/
class LawfulIterator (I : Type) [Iterator I] : Prop where
  ne_eq_not_eq : ∀ a b : I, Iterator.ne a b = !Iterator.eq a b

/-- Operations of a container shape with cursor type `I` whose dereferenced
cursor yields an `E`. Two writes are told apart: `assign` is `v = x` for
`auto &&v = *it`, and `assign_access` is `w = x` for an object `w` of type
`select_access_type_for<I>` initialised from `*it`, which is what a `zip_iterator`
stores in the pair it returns. -/
class Container (C : Type) (I : outParam Type) (E : outParam Type) where
  begin : C → I
  «end» : C → I
  size : C → Nat
  deref : C → I → Option E
  assign : C → I → E → Option C
  assign_access : C → I → E → Option C
  erase : C → I → Option (C × I)

/-- Width of `size_t`. -/
def SIZE_BITS : Nat := 64

/-! ### `std::vector` -/

/-- Cursor of a `std::vector`: the offset from `begin()`. -/
structure vec_iterator where
  pos : Nat
deriving DecidableEq, Repr

instance : Iterator vec_iterator where
  incr it := ⟨it.pos + 1⟩
  eq a b := a.pos == b.pos
  ne a b := !(a.pos == b.pos)

instance : LawfulIterator vec_iterator := ⟨fun _ _ => rfl⟩

/-- The alias `select_access_type_for<Iter>` at the cursors of `std::vector<α>`:
`by_value` holds when it selects `iterator_traits<Iter>::value_type`, which it does for
the cursors of `std::vector<bool>` only; otherwise it selects
`iterator_traits<Iter>::reference`, a reference into the storage. -/
class select_access_type_for (α : Type) where
  by_value : Bool

instance : select_access_type_for Bool := ⟨true⟩

instance : select_access_type_for Int := ⟨false⟩

instance : select_access_type_for Nat := ⟨false⟩

instance : select_access_type_for String := ⟨false⟩

/-- The shape `std::vector<α>`. `erase(it)` removes the element at `it` and returns the
cursor of the element that followed it, which has the same offset. `v = x` for
`auto &&v = *it` writes into the storage (through a reference, or through the bit proxy
of `std::vector<bool>`); a write to the accessor kept in a zipped pair reaches the
storage unless the accessor is a copy. -/
instance (α : Type) [select_access_type_for α] : Container (List α) vec_iterator α where
  begin _ := ⟨0⟩
  «end» v := ⟨v.length⟩
  size v := v.length
  deref v it := v[it.pos]?
  assign v it x := if it.pos < v.length then some (v.set it.pos x) else none
  assign_access v it x :=
    if select_access_type_for.by_value α then
      some v
    else if it.pos < v.length then some (v.set it.pos x) else none
  erase v it := if it.pos < v.length then some (v.eraseIdx it.pos, it) else none

/-! ### `zip_iterator` and `zipper` -/

/-- The class `zip_iterator<Iter1, Iter2>`. -/
structure zip_iterator (Iter1 Iter2 : Type) where
  iter1_ : Iter1
  iter2_ : Iter2
deriving DecidableEq, Repr

instance (Iter1 Iter2 : Type) [Iterator Iter1] [Iterator Iter2] :
    Iterator (zip_iterator Iter1 Iter2) where
  incr it := ⟨Iterator.incr it.iter1_, Iterator.incr it.iter2_⟩
  eq a b := Iterator.eq a.iter1_ b.iter1_ || Iterator.eq a.iter2_ b.iter2_
  ne a b := !(Iterator.eq a.iter1_ b.iter1_ || Iterator.eq a.iter2_ b.iter2_)

instance (Iter1 Iter2 : Type) [Iterator Iter1] [Iterator Iter2] :
    LawfulIterator (zip_iterator Iter1 Iter2) := ⟨fun _ _ => rfl⟩

/-- The class `zipper<T, U>`: the two sides `lhs_` and `rhs_`. -/
structure zipper (T U : Type) where
  lhs_ : T
  rhs_ : U
deriving DecidableEq, Repr

/-- The message of the exception thrown by the constructor of `zipper`. -/
def size_mismatch_msg : String := "zipper: size does not match"

/-- The constructor `zipper::zipper(a, b)`. -/
def zipper.zipper {T U I1 I2 E1 E2 : Type} [Container T I1 E1] [Container U I2 E2]
    (a : T) (b : U) : Except String (zipper T U) :=
  if Container.size a != Container.size b then
    Except.error size_mismatch_msg
  else
    Except.ok ⟨a, b⟩

/-- The function `zip(t, u)`. -/
def zip {T U I1 I2 E1 E2 : Type} [Container T I1 E1] [Container U I2 E2]
    (t : T) (u : U) : Except String (zipper T U) :=
  zipper.zipper t u

/-- The shape `zipper<T, U>`. `operator*` returns the pair of the two accessors by
value, so assigning a pair to it assigns each half to the accessor of its side. -/
instance (T U I1 I2 E1 E2 : Type) [Container T I1 E1] [Container U I2 E2] :
    Container (zipper T U) (zip_iterator I1 I2) (E1 × E2) where
  begin z := ⟨Container.begin z.lhs_, Container.begin z.rhs_⟩
  «end» z := ⟨Container.end z.lhs_, Container.end z.rhs_⟩
  size z := Container.size z.lhs_
  deref z it :=
    match Container.deref z.lhs_ it.iter1_, Container.deref z.rhs_ it.iter2_ with
    | some x, some y => some (x, y)
    | _, _ => none
  assign z it v :=
    match Container.assign_access z.lhs_ it.iter1_ v.1 with
    | none => none
    | some l =>
      match Container.assign_access z.rhs_ it.iter2_ v.2 with
      | none => none
      | some r => some ⟨l, r⟩
  assign_access z it v :=
    match Container.assign_access z.lhs_ it.iter1_ v.1 with
    | none => none
    | some l =>
      match Container.assign_access z.rhs_ it.iter2_ v.2 with
      | none => none
      | some r => some ⟨l, r⟩
  erase z v :=
    match Container.erase z.lhs_ v.iter1_, Container.erase z.rhs_ v.iter2_ with
    | some (l, i1), some (r, i2) => some (⟨l, r⟩, ⟨i1, i2⟩)
    | _, _ => none

/-! ### `range_iterator` and `range_impl` -/

/-- The struct `range_iterator<T>`. -/
structure range_iterator where
  val_ : Int
deriving DecidableEq, Repr

instance : Iterator range_iterator where
  incr it := ⟨it.val_ + 1⟩
  eq a b := a.val_ == b.val_
  ne a b := !(a.val_ == b.val_)

instance : LawfulIterator range_iterator := ⟨fun _ _ => rfl⟩

/-- Width of `int`, the type `T` of every `range` call in `test/main.cpp`. -/
def INT_BITS : Nat := 32

/-- The value of the signed integer type of `bits` bits to which an arithmetic result `x`
wraps around: `x` itself when it fits, otherwise `x` shifted by a multiple of
`2 ^ bits`. -/
def wrap_T (bits : Nat) (x : Int) : Int :=
  (x + 2 ^ (bits - 1)) % 2 ^ bits - 2 ^ (bits - 1)

/-- Width of the type in which `end_ - begin_` is computed for a `T` of `bits` bits: `T`
itself, or `int` when `T` is narrower (integer promotion). -/
def arith_bits (bits : Nat) : Nat := max bits INT_BITS

/-- The class `range_impl<T>`: the members `begin_` and `end_`, and the width in bits of
the signed integer type `T` at which the template is instantiated (a 64-bit unsigned `T`
has the same `size()` as the signed one). -/
structure range_impl where
  begin_ : Int
  end_ : Int
  bits : Nat
deriving DecidableEq, Repr

/-- The shape `range_impl<T>`. `size()` is `end_ - begin_`, computed in `T` and converted
to `size_t`. `operator*` returns the counter by value, so a write through it changes
nothing, and `erase(v)` is `++v`. -/
instance : Container range_impl range_iterator Int where
  begin r := ⟨r.begin_⟩
  «end» r := ⟨r.end_⟩
  size r := (wrap_T (arith_bits r.bits) (r.end_ - r.begin_) % (2 ^ SIZE_BITS : Int)).toNat
  deref _ it := some it.val_
  assign r _ _ := some r
  assign_access r _ _ := some r
  erase r v := some (r, Iterator.incr v)

/-- The function `range(end)` at an integer type `T` of `bits` bits. -/
def range1_T (bits : Nat) (e : Int) : range_impl := ⟨0, e, bits⟩

/-- The function `range(begin, end)` at a 64-bit `T`. -/
def range (b e : Int) : range_impl := ⟨b, e, 64⟩

/-- The function `range(end)` at a 64-bit `T`, such as `std::size_t` in
`range(vs.size())`. -/
def range1 (e : Int) : range_impl := ⟨0, e, 64⟩

/-! ## `container_traits` -/

/-- The members `reserve` and `insert_back` of `container_traits<O>`. -/
class container_traits (O : Type) (E : outParam Type) where
  reserve : O → Nat → O
  insert_back : O → E → O

/-- Value initialisation `O {}` of an output container. -/
class value_init (O : Type) where
  init : O

instance (α : Type) : container_traits (List α) α where
  reserve v _ := v
  insert_back v x := v ++ [x]

instance (α : Type) : value_init (List α) where
  init := []

instance : container_traits range_impl Int where
  reserve v _ := v
  insert_back v _ := v

/-! ## Targets of `as` -/

/-- The class `std::unordered_map<K, V>`: its entries, at most one for a key. The order
of the list has no meaning; the container is observed through `find` and `size`. -/
structure unordered_map (K V : Type) where
  entries : List (K × V)
deriving Repr

/-- The member `find(k)`: the value stored under the key `k`, if there is one. -/
def unordered_map.find {K V : Type} [DecidableEq K] (m : unordered_map K V) (k : K) :
    Option V :=
  (m.entries.find? (fun kv => kv.1 == k)).map (fun kv => kv.2)

/-- The member `size()`. -/
def unordered_map.size {K V : Type} (m : unordered_map K V) : Nat :=
  m.entries.length

/-- The member `insert(kv)`: adds the entry unless its key is already present. -/
def unordered_map.insert {K V : Type} [DecidableEq K] (m : unordered_map K V) (kv : K × V) :
    unordered_map K V :=
  if (m.find kv.1).isSome then m else ⟨m.entries ++ [kv]⟩

/-- The constructor `OutT(first, last)` from two cursors: it starts from the empty
container and takes the values `*first` in order. -/
class range_constructible (OutT : Type) (E : outParam Type) where
  empty : OutT
  insert : OutT → E → OutT

instance (α : Type) : range_constructible (List α) α where
  empty := []
  insert v x := v ++ [x]

instance (K V : Type) [DecidableEq K] : range_constructible (unordered_map K V) (K × V) where
  empty := ⟨[]⟩
  insert m kv := m.insert kv

/-! ## `itertool_impl` -/

/-- The struct `itertool_impl<T>`: the wrapped container `val_`. -/
structure itertool_impl (T : Type) where
  val_ : T
deriving DecidableEq, Repr

/-- The function `iter_on(v)`. -/
def iter_on {T : Type} (v : T) : itertool_impl T := ⟨v⟩

namespace itertool_impl

variable {T I E : Type} [Iterator I] [Container T I E]

/-- The loop of `map`: `for (auto &&v : val_) insert_back(ret.val_, f(v))`. -/
def map_loop {O β : Type} [container_traits O β] (f : E → β) (val_ : T) (e : I) :
    Nat → I → O → Option O
  | 0, _, _ => none
  | fuel + 1, it, ret =>
    if Iterator.ne it e then
      match Container.deref val_ it with
      | none => none
      | some v => map_loop f val_ e fuel (Iterator.incr it) (container_traits.insert_back ret (f v))
    else
      some ret

/-- The member `map(f)`; returns the handle afterwards and the new handle. -/
def map (O : Type) {β : Type} [container_traits O β] [value_init O]
    (fuel : Nat) (self : itertool_impl T) (f : E → β) :
    Option (itertool_impl T × itertool_impl O) :=
  let ret : O := value_init.init
  let ret := container_traits.reserve ret (Container.size self.val_)
  match map_loop f self.val_ (Container.end self.val_) fuel (Container.begin self.val_) ret with
  | none => none
  | some out => some (self, ⟨out⟩)

/-- The loop of `filter`: `for (auto &&v : val_) if (f(v)) insert_back(ret.val_, v)`. -/
def filter_loop [container_traits T E] (f : E → Bool) (val_ : T) (e : I) :
    Nat → I → T → Option T
  | 0, _, _ => none
  | fuel + 1, it, ret =>
    if Iterator.ne it e then
      match Container.deref val_ it with
      | none => none
      | some v =>
        if f v then
          filter_loop f val_ e fuel (Iterator.incr it) (container_traits.insert_back ret v)
        else
          filter_loop f val_ e fuel (Iterator.incr it) ret
    else
      some ret

/-- The member `filter(f)`; returns the handle afterwards and the new handle. -/
def filter [container_traits T E] [value_init T]
    (fuel : Nat) (self : itertool_impl T) (f : E → Bool) :
    Option (itertool_impl T × itertool_impl T) :=
  let ret : T := value_init.init
  match filter_loop f self.val_ (Container.end self.val_) fuel (Container.begin self.val_) ret with
  | none => none
  | some out => some (self, ⟨out⟩)

/-- The loop of `map_inplace`: `for (auto &&v : val_) v = f(v)`. -/
def map_inplace_loop (f : E → E) (e : I) : Nat → T → I → Option T
  | 0, _, _ => none
  | fuel + 1, val_, it =>
    if Iterator.ne it e then
      match Container.deref val_ it with
      | none => none
      | some v =>
        match Container.assign val_ it (f v) with
        | none => none
        | some val_ => map_inplace_loop f e fuel val_ (Iterator.incr it)
    else
      some val_

/-- The member `map_inplace(f)`; returns the handle afterwards. -/
def map_inplace (fuel : Nat) (self : itertool_impl T) (f : E → E) :
    Option (itertool_impl T) :=
  match map_inplace_loop f (Container.end self.val_) fuel self.val_
      (Container.begin self.val_) with
  | none => none
  | some v => some ⟨v⟩

/-- The loop of `filter_inplace`; `val_.end()` is evaluated at every test. -/
def filter_inplace_loop (f : E → Bool) : Nat → T → I → Option T
  | 0, _, _ => none
  | fuel + 1, val_, itr =>
    if Iterator.ne itr (Container.end val_) then
      match Container.deref val_ itr with
      | none => none
      | some v =>
        if !f v then
          match Container.erase val_ itr with
          | none => none
          | some (val_, itr) => filter_inplace_loop f fuel val_ itr
        else
          filter_inplace_loop f fuel val_ (Iterator.incr itr)
    else
      some val_

/-- The member `filter_inplace(f)`; returns the handle afterwards. -/
def filter_inplace (fuel : Nat) (self : itertool_impl T) (f : E → Bool) :
    Option (itertool_impl T) :=
  match filter_inplace_loop f fuel self.val_ (Container.begin self.val_) with
  | none => none
  | some v => some ⟨v⟩

/-- The loop of `reduce`: `for (auto &&v : val_) reducev = f(reducev, v)`. -/
def reduce_loop {TVal : Type} (f : TVal → E → TVal) (val_ : T) (e : I) :
    Nat → I → TVal → Option TVal
  | 0, _, _ => none
  | fuel + 1, it, reducev =>
    if Iterator.ne it e then
      match Container.deref val_ it with
      | none => none
      | some v => reduce_loop f val_ e fuel (Iterator.incr it) (f reducev v)
    else
      some reducev

/-- The member `reduce(initv, f)`. -/
def reduce {TVal : Type} (fuel : Nat) (self : itertool_impl T) (initv : TVal)
    (f : TVal → E → TVal) : Option TVal :=
  reduce_loop f self.val_ (Container.end self.val_) fuel (Container.begin self.val_) initv

/-- The message of the exception thrown by `find_if`. -/
def not_found_msg : String := "find_if: the element not found"

/-- The loop of `find_if` together with the `throw` that follows it. -/
def find_if_loop (f : E → Bool) (val_ : T) (e : I) : Nat → I → Option (Except String E)
  | 0, _ => none
  | fuel + 1, it =>
    if Iterator.ne it e then
      match Container.deref val_ it with
      | none => none
      | some v => if f v then some (Except.ok v) else find_if_loop f val_ e fuel (Iterator.incr it)
    else
      some (Except.error not_found_msg)

/-- The member `find_if(f)`. -/
def find_if (fuel : Nat) (self : itertool_impl T) (f : E → Bool) : Option (Except String E) :=
  find_if_loop f self.val_ (Container.end self.val_) fuel (Container.begin self.val_)

/-- The member `get()`. -/
def get (self : itertool_impl T) : T := self.val_

/-- The loop of the constructor `OutT(first, last)` that `as` calls:
`for (; first != last; ++first) insert(*first)`. -/
def as_loop {OutT : Type} [range_constructible OutT E] (val_ : T) (last : I) :
    Nat → I → OutT → Option OutT
  | 0, _, _ => none
  | fuel + 1, first, out =>
    if Iterator.ne first last then
      match Container.deref val_ first with
      | none => none
      | some v => as_loop val_ last fuel (Iterator.incr first) (range_constructible.insert out v)
    else
      some out

/-- The member `as<OutT>()`: `OutT {val_.begin(), val_.end()}`. -/
def as (OutT : Type) [range_constructible OutT E] (fuel : Nat) (self : itertool_impl T) :
    Option OutT :=
  as_loop self.val_ (Container.end self.val_) fuel (Container.begin self.val_)
    range_constructible.empty

/-- One pass through the body of the loop of `filter_inplace`:
`if (!f(*itr)) itr = val_.erase(itr); else ++itr;`. -/
def filter_inplace_body (f : E → Bool) (val_ : T) (itr : I) : Option (T × I) :=
  match Container.deref val_ itr with
  | none => none
  | some v => if !f v then Container.erase val_ itr else some (val_, Iterator.incr itr)

end itertool_impl

/-! ## Traversal order -/

/-- The values `*it` met by `for (; it != e; ++it)` over `c`, in order. -/
def elements_from {C I E : Type} [Iterator I] [Container C I E] (c : C) (e : I) :
    Nat → I → Option (List E)
  | 0, _ => none
  | fuel + 1, it =>
    if Iterator.ne it e then
      match Container.deref c it with
      | none => none
      | some v =>
        match elements_from c e fuel (Iterator.incr it) with
        | none => none
        | some l => some (v :: l)
    else
      some []

/-- The values visited by `for (auto &&v : c)`, in order. -/
def elements {C I E : Type} [Iterator I] [Container C I E] (fuel : Nat) (c : C) :
    Option (List E) :=
  elements_from c (Container.end c) fuel (Container.begin c)

/-- The values `begin_, begin_ + 1, ..., end_ - 1` of a range. -/
def range_values (r : range_impl) : List Int :=
  (List.range (r.end_ - r.begin_).toNat).map (fun (k : Nat) => r.begin_ + (k : Int))

/-! ## Stepping and erasing -/

/-- The cursor after `k` applications of `operator++`. -/
def advance {I : Type} [Iterator I] : Nat → I → I
  | 0, it => it
  | k + 1, it => advance k (Iterator.incr it)

/-- Stepping from `begin()`, `k` is the first step count at which the cursor compares
equal to `end()`. -/
def first_end_step {C I E : Type} [Iterator I] [Container C I E] (c : C) (k : Nat) : Prop :=
  Iterator.eq (advance k (Container.begin c)) (Container.end c) = true
    ∧ ∀ j, j < k → Iterator.eq (advance j (Container.begin c)) (Container.end c) = false

instance {C I E : Type} [Iterator I] [Container C I E] (c : C) (k : Nat) :
    Decidable (first_end_step c k) := by
  unfold first_end_step
  infer_instance

/-- The states of a zipper reached from `z0` by calls of `erase` at cursors at which
`erase` is defined. -/
inductive erase_reachable {T U I1 I2 E1 E2 : Type} [Container T I1 E1] [Container U I2 E2]
    (z0 : zipper T U) : zipper T U → Prop
  | init : erase_reachable z0 z0
  | erase (z z1 : zipper T U) (v v1 : zip_iterator I1 I2) :
      erase_reachable z0 z → Container.erase z v = some (z1, v1) → erase_reachable z0 z1

/-! ## Unfolding lemmas for the three shapes -/

section unfold

variable {α : Type} [select_access_type_for α]

theorem vec_ne (a b : vec_iterator) : Iterator.ne a b = !(a.pos == b.pos) := rfl

theorem vec_eq (a b : vec_iterator) : Iterator.eq a b = (a.pos == b.pos) := rfl

theorem vec_incr (a : vec_iterator) : Iterator.incr a = ⟨a.pos + 1⟩ := rfl

theorem vec_begin (v : List α) : Container.begin v = (⟨0⟩ : vec_iterator) := rfl

theorem vec_end (v : List α) : Container.end v = (⟨v.length⟩ : vec_iterator) := rfl

theorem vec_size (v : List α) : Container.size v = v.length := rfl

theorem vec_deref (v : List α) (it : vec_iterator) : Container.deref v it = v[it.pos]? := rfl

theorem vec_assign (v : List α) (it : vec_iterator) (x : α) :
    Container.assign v it x = if it.pos < v.length then some (v.set it.pos x) else none := rfl

theorem vec_assign_access (v : List α) (it : vec_iterator) (x : α)
    (h : select_access_type_for.by_value α = false) :
    Container.assign_access v it x
      = if it.pos < v.length then some (v.set it.pos x) else none := by
  show (if select_access_type_for.by_value α then some v
    else if it.pos < v.length then some (v.set it.pos x) else none) = _
  rw [h]
  rfl

theorem vec_erase (v : List α) (it : vec_iterator) :
    Container.erase v it = if it.pos < v.length then some (v.eraseIdx it.pos, it) else none := rfl

theorem range_ne (a b : range_iterator) : Iterator.ne a b = !(a.val_ == b.val_) := rfl

theorem range_eq (a b : range_iterator) : Iterator.eq a b = (a.val_ == b.val_) := rfl

theorem range_incr (a : range_iterator) : Iterator.incr a = ⟨a.val_ + 1⟩ := rfl

theorem range_begin (r : range_impl) : Container.begin r = (⟨r.begin_⟩ : range_iterator) := rfl

theorem range_end (r : range_impl) : Container.end r = (⟨r.end_⟩ : range_iterator) := rfl

theorem range_size (r : range_impl) :
    Container.size r
      = (wrap_T (arith_bits r.bits) (r.end_ - r.begin_) % (2 ^ SIZE_BITS : Int)).toNat :=
  rfl

/-- Wrapping at 64 bits is invisible after the conversion to `size_t`. -/
theorem wrap_T_64_emod (x : Int) :
    wrap_T 64 x % (2 ^ SIZE_BITS : Int) = x % (2 ^ SIZE_BITS : Int) := by
  simp only [wrap_T, SIZE_BITS]
  norm_num
  omega

/-- A result between `0` and the maximum of `T` does not wrap. -/
theorem wrap_T_of_fits (bits : Nat) (x : Int) (hb : 0 < bits) (h0 : 0 ≤ x)
    (hx : x < 2 ^ (bits - 1)) : wrap_T bits x = x := by
  have hpow : (2 : Int) ^ bits = 2 * 2 ^ (bits - 1) := by
    obtain ⟨k, rfl⟩ : ∃ k, bits = k + 1 := ⟨bits - 1, by omega⟩
    simp [pow_succ, mul_comm]
  have hpos : (0 : Int) < 2 ^ (bits - 1) := by positivity
  unfold wrap_T
  rw [Int.emod_eq_of_lt (by omega) (by omega)]
  omega

/-- The size of `range(end)` at a 64-bit `T`. -/
theorem range1_size (e : Int) :
    Container.size (range1 e) = (e % (2 ^ SIZE_BITS : Int)).toNat := by
  rw [range_size]
  have h64 : arith_bits 64 = 64 := by decide
  simp only [range1, sub_zero, h64]
  rw [wrap_T_64_emod]

/-- The size of `range(n)` is `n` at every `T` that holds `n`, as it is at a 64-bit `T`. -/
theorem range1_T_size (bits n : Nat) (hT : (n : Int) < 2 ^ (arith_bits bits - 1))
    (hsz : n < 2 ^ SIZE_BITS) :
    Container.size (range1_T bits n) = n ∧ Container.size (range1 n) = n := by
  have hbits : 0 < arith_bits bits := by
    unfold arith_bits INT_BITS
    omega
  refine ⟨?_, ?_⟩
  · rw [range_size]
    simp only [range1_T, sub_zero]
    rw [wrap_T_of_fits (arith_bits bits) n hbits (by omega) hT,
      Int.emod_eq_of_lt (by omega) (by exact_mod_cast hsz)]
    simp
  · rw [range1_size, Int.emod_eq_of_lt (by omega) (by exact_mod_cast hsz)]
    simp

theorem range_deref (r : range_impl) (it : range_iterator) :
    Container.deref r it = some it.val_ := rfl

theorem range_assign (r : range_impl) (it : range_iterator) (x : Int) :
    Container.assign r it x = some r := rfl

theorem range_assign_access (r : range_impl) (it : range_iterator) (x : Int) :
    Container.assign_access r it x = some r := rfl

theorem range_erase (r : range_impl) (it : range_iterator) :
    Container.erase r it = some (r, ⟨it.val_ + 1⟩) := rfl

variable {T U I1 I2 E1 E2 : Type} [Iterator I1] [Iterator I2]
  [Container T I1 E1] [Container U I2 E2]

theorem zip_ne (a b : zip_iterator I1 I2) :
    Iterator.ne a b = !(Iterator.eq a.iter1_ b.iter1_ || Iterator.eq a.iter2_ b.iter2_) := rfl

theorem zip_incr (a : zip_iterator I1 I2) :
    Iterator.incr a = ⟨Iterator.incr a.iter1_, Iterator.incr a.iter2_⟩ := rfl

theorem zipper_begin (z : zipper T U) :
    Container.begin z = (⟨Container.begin z.lhs_, Container.begin z.rhs_⟩ : zip_iterator I1 I2) :=
  rfl

theorem zipper_end (z : zipper T U) :
    Container.end z = (⟨Container.end z.lhs_, Container.end z.rhs_⟩ : zip_iterator I1 I2) :=
  rfl

theorem zipper_size (z : zipper T U) : Container.size z = Container.size z.lhs_ := rfl

theorem zipper_deref (z : zipper T U) (it : zip_iterator I1 I2) :
    Container.deref z it =
      match Container.deref z.lhs_ it.iter1_, Container.deref z.rhs_ it.iter2_ with
      | some x, some y => some (x, y)
      | _, _ => none := rfl

theorem zipper_assign (z : zipper T U) (it : zip_iterator I1 I2) (v : E1 × E2) :
    Container.assign z it v =
      match Container.assign_access z.lhs_ it.iter1_ v.1 with
      | none => none
      | some l =>
        match Container.assign_access z.rhs_ it.iter2_ v.2 with
        | none => none
        | some r => some ⟨l, r⟩ := rfl

theorem zipper_erase (z : zipper T U) (v : zip_iterator I1 I2) :
    Container.erase z v =
      match Container.erase z.lhs_ v.iter1_, Container.erase z.rhs_ v.iter2_ with
      | some (l, i1), some (r, i2) => some (⟨l, r⟩, ⟨i1, i2⟩)
      | _, _ => none := rfl

end unfold

/-! ## Traversal of each shape -/

section traversal

variable {α : Type} [select_access_type_for α]

/-- A traversal that completes keeps its result when given more fuel. -/
theorem elements_from_mono {C I E : Type} [Iterator I] [Container C I E] (c : C) (e : I) :
    ∀ (fuel : Nat) (it : I) (l : List E), elements_from c e fuel it = some l →
      ∀ k, elements_from c e (fuel + k) it = some l := by
  intro fuel
  induction fuel with
  | zero => intro it l h; simp [elements_from] at h
  | succ n ih =>
    intro it l h k
    rw [Nat.add_right_comm]
    simp only [elements_from] at h ⊢
    split at h
    · rename_i hne
      rw [if_pos hne]
      cases hd : Container.deref c it with
      | none => simp [hd] at h
      | some v =>
        simp only [hd] at h ⊢
        cases hr : elements_from c e n (Iterator.incr it) with
        | none => simp [hr] at h
        | some l1 =>
          simp only [hr] at h
          rw [ih _ _ hr k]
          exact h
    · rename_i hne
      rw [if_neg hne]
      exact h

/-- Traversing a vector from offset `|pa|` to its end yields the suffix. -/
theorem elements_from_vec (sa : List α) :
    ∀ (pa xs : List α) (fuel : Nat), xs = pa ++ sa → sa.length < fuel →
      elements_from xs (⟨xs.length⟩ : vec_iterator) fuel ⟨pa.length⟩ = some sa := by
  induction sa with
  | nil =>
    intro pa xs fuel hc hf
    obtain ⟨n, rfl⟩ : ∃ n, fuel = n + 1 := ⟨fuel - 1, by simp at hf; omega⟩
    subst hc
    simp [elements_from, vec_ne]
  | cons x sa ih =>
    intro pa xs fuel hc hf
    obtain ⟨n, rfl⟩ : ∃ n, fuel = n + 1 := ⟨fuel - 1, by omega⟩
    have hlen : xs.length = pa.length + (sa.length + 1) := by subst hc; simp
    have hd : xs[pa.length]? = some x := by
      subst hc
      rw [List.getElem?_append_right (Nat.le_refl _)]
      simp
    have hrec := ih (pa ++ [x]) xs n (by subst hc; simp) (by simp at hf; omega)
    simp only [List.length_append, List.length_singleton] at hrec
    simp only [elements_from, vec_ne, vec_deref, vec_incr, hd, hrec]
    simp [hlen]

/-- A vector is traversed front to back. -/
theorem elements_vec (xs : List α) (fuel : Nat) (h : xs.length < fuel) :
    elements fuel xs = some xs := by
  have := elements_from_vec xs [] xs fuel (by simp) h
  simpa [elements, vec_begin, vec_end] using this

/-- Traversing a range from `v` to `e = v + k` yields `v, ..., v + k - 1`. -/
theorem elements_from_range (r : range_impl) (e : Int) :
    ∀ (k fuel : Nat) (v : Int), v + k = e → k < fuel →
      elements_from r (⟨e⟩ : range_iterator) fuel ⟨v⟩
        = some ((List.range k).map (fun (j : Nat) => v + (j : Int))) := by
  intro k
  induction k with
  | zero =>
    intro fuel v hv hf
    obtain ⟨n, rfl⟩ : ∃ n, fuel = n + 1 := ⟨fuel - 1, by omega⟩
    have : v = e := by simpa using hv
    simp [elements_from, range_ne, this]
  | succ k ih =>
    intro fuel v hv hf
    obtain ⟨n, rfl⟩ : ∃ n, fuel = n + 1 := ⟨fuel - 1, by omega⟩
    have hne : ¬ v = e := by
      intro h; rw [h] at hv; push_cast at hv; omega
    have hrec := ih n (v + 1) (by push_cast at hv; omega) (by omega)
    simp only [elements_from, range_ne, range_deref, range_incr, hrec]
    simp only [beq_iff_eq, hne, Bool.not_false, if_true, List.range_succ_eq_map,
      List.map_cons, List.map_map]
    simp [Function.comp_def, add_assoc, add_comm (1 : Int), hne]

/-- A range with `begin_ ≤ end_` is traversed in increasing order. -/
theorem elements_range (r : range_impl) (fuel : Nat) (hr : r.begin_ ≤ r.end_)
    (h : (r.end_ - r.begin_).toNat < fuel) :
    elements fuel r = some (range_values r) := by
  have := elements_from_range r r.end_ (r.end_ - r.begin_).toNat fuel r.begin_
    (by rw [Int.toNat_of_nonneg (by omega)]; omega) h
  simpa [elements, range_begin, range_end, range_values] using this

variable {T U I1 I2 E1 E2 : Type} [Iterator I1] [Iterator I2]
  [LawfulIterator I1] [LawfulIterator I2] [Container T I1 E1] [Container U I2 E2]

/-- A zipped traversal pairs the two sides and stops with the shorter one. -/
theorem elements_from_zipper (l : T) (r : U) (e1 : I1) (e2 : I2) :
    ∀ (fuel : Nat) (it : I1) (jt : I2) (l1 : List E1) (l2 : List E2),
      elements_from l e1 fuel it = some l1 → elements_from r e2 fuel jt = some l2 →
      elements_from (⟨l, r⟩ : zipper T U) (⟨e1, e2⟩ : zip_iterator I1 I2) fuel ⟨it, jt⟩
        = some (List.zip l1 l2) := by
  intro fuel
  induction fuel with
  | zero => intro it jt l1 l2 h1; simp [elements_from] at h1
  | succ n ih =>
    intro it jt l1 l2 h1 h2
    simp only [elements_from, LawfulIterator.ne_eq_not_eq] at h1 h2
    simp only [elements_from, zip_ne]
    by_cases ha : Iterator.eq it e1 = true
    · simp only [ha, Bool.not_true, Bool.false_eq_true, if_false, Option.some.injEq] at h1
      subst h1
      simp [ha]
    · by_cases hb : Iterator.eq jt e2 = true
      · simp only [hb, Bool.not_true, Bool.false_eq_true, if_false, Option.some.injEq] at h2
        subst h2
        simp [hb]
      · simp only [Bool.not_eq_true] at ha hb
        simp only [ha, hb, Bool.not_false, if_true] at h1 h2
        cases hd1 : Container.deref l it with
        | none => simp [hd1] at h1
        | some x =>
          cases hd2 : Container.deref r jt with
          | none => simp [hd2] at h2
          | some y =>
            cases hr1 : elements_from l e1 n (Iterator.incr it) with
            | none => simp [hd1, hr1] at h1
            | some t1 =>
              cases hr2 : elements_from r e2 n (Iterator.incr jt) with
              | none => simp [hd2, hr2] at h2
              | some t2 =>
                simp only [hd1, hr1, Option.some.injEq] at h1
                simp only [hd2, hr2, Option.some.injEq] at h2
                subst h1 h2
                simp [ha, hb, zipper_deref, zip_incr, hd1, hd2, ih _ _ _ _ hr1 hr2]

/-- The traversal of a zipper is the zip of the traversals of its sides. -/
theorem elements_zipper (z : zipper T U) (fuel : Nat) (l1 : List E1) (l2 : List E2)
    (h1 : elements fuel z.lhs_ = some l1) (h2 : elements fuel z.rhs_ = some l2) :
    elements fuel z = some (List.zip l1 l2) :=
  elements_from_zipper z.lhs_ z.rhs_ _ _ fuel _ _ l1 l2 h1 h2

end traversal

/-! ## The read-only adapters in terms of the traversal -/

section adapters

open itertool_impl

variable {T I E : Type} [Iterator I] [Container T I E]

theorem map_loop_eq {O β : Type} [container_traits O β] (f : E → β) (val_ : T) (e : I) :
    ∀ (fuel : Nat) (it : I) (ret : O), map_loop f val_ e fuel it ret =
      (elements_from val_ e fuel it).map
        (fun l => l.foldl (fun r v => container_traits.insert_back r (f v)) ret) := by
  intro fuel
  induction fuel with
  | zero => intro it ret; simp [map_loop, elements_from]
  | succ n ih =>
    intro it ret
    simp only [map_loop, elements_from]
    split
    · cases Container.deref val_ it with
      | none => simp
      | some v =>
        simp only [ih]
        cases elements_from val_ e n (Iterator.incr it) <;> simp
    · simp

theorem filter_loop_eq [container_traits T E] (f : E → Bool) (val_ : T) (e : I) :
    ∀ (fuel : Nat) (it : I) (ret : T), filter_loop f val_ e fuel it ret =
      (elements_from val_ e fuel it).map
        (fun l => l.foldl (fun r v => if f v then container_traits.insert_back r v else r) ret) := by
  intro fuel
  induction fuel with
  | zero => intro it ret; simp [filter_loop, elements_from]
  | succ n ih =>
    intro it ret
    simp only [filter_loop, elements_from]
    split
    · cases Container.deref val_ it with
      | none => simp
      | some v =>
        simp only [ih]
        cases elements_from val_ e n (Iterator.incr it) <;> cases hf : f v <;> simp [hf]
    · simp

theorem reduce_loop_eq {TVal : Type} (f : TVal → E → TVal) (val_ : T) (e : I) :
    ∀ (fuel : Nat) (it : I) (reducev : TVal), reduce_loop f val_ e fuel it reducev =
      (elements_from val_ e fuel it).map (fun l => l.foldl f reducev) := by
  intro fuel
  induction fuel with
  | zero => intro it ret; simp [reduce_loop, elements_from]
  | succ n ih =>
    intro it ret
    simp only [reduce_loop, elements_from]
    split
    · cases Container.deref val_ it with
      | none => simp
      | some v =>
        simp only [ih]
        cases elements_from val_ e n (Iterator.incr it) <;> simp
    · simp

theorem find_if_loop_of_elements (f : E → Bool) (val_ : T) (e : I) :
    ∀ (fuel : Nat) (it : I) (l : List E), elements_from val_ e fuel it = some l →
      find_if_loop f val_ e fuel it =
        some (match l.find? f with
          | some v => Except.ok v
          | none => Except.error not_found_msg) := by
  intro fuel
  induction fuel with
  | zero => intro it l h; simp [elements_from] at h
  | succ n ih =>
    intro it l h
    simp only [elements_from] at h
    simp only [find_if_loop]
    split at h
    · rename_i hne
      rw [if_pos hne]
      cases hd : Container.deref val_ it with
      | none => simp [hd] at h
      | some v =>
        cases hr : elements_from val_ e n (Iterator.incr it) with
        | none => simp [hd, hr] at h
        | some t =>
          simp only [hd, hr, Option.some.injEq] at h
          subst h
          cases hf : f v with
          | true => simp [List.find?, hf]
          | false => simp [List.find?, hf, ih _ _ hr]
    · rename_i hne
      rw [if_neg hne]
      simp only [Option.some.injEq] at h
      subst h
      simp

theorem foldl_insert_back_map {α β : Type} (g : α → β) (l : List α) :
    ∀ ret : List β,
      l.foldl (fun r v => container_traits.insert_back r (g v)) ret = ret ++ l.map g := by
  induction l with
  | nil => intro ret; simp
  | cons x l ih =>
    intro ret
    rw [List.foldl_cons, ih]
    simp [container_traits.insert_back]

theorem foldl_insert_back_filter {α : Type} (g : α → Bool) (l : List α) :
    ∀ ret : List α,
      l.foldl (fun r v => if g v then container_traits.insert_back r v else r) ret
        = ret ++ l.filter g := by
  induction l with
  | nil => intro ret; simp
  | cons x l ih =>
    intro ret
    rw [List.foldl_cons, ih]
    cases hg : g x <;> simp [hg, container_traits.insert_back]

end adapters

/-! ## The adapters over vectors and zipped vectors -/

section claims

open itertool_impl

variable {α β γ : Type} [select_access_type_for α] [select_access_type_for β]

/-- The result of `map` once the traversal of the input is known. -/
theorem map_of_elements {T I E δ : Type} [Iterator I] [Container T I E] (val_ : T)
    (f : E → δ) (fuel : Nat) (l : List E) (h : elements fuel val_ = some l) :
    map (List δ) fuel (iter_on val_) f = some (iter_on val_, iter_on (l.map f)) := by
  unfold elements at h
  simp [map, iter_on, map_loop_eq, h, foldl_insert_back_map, container_traits.reserve,
    value_init.init]

/-- The result of `filter` over a vector. -/
theorem filter_of_vec (xs : List α) (p : α → Bool) (fuel : Nat) (h : xs.length < fuel) :
    filter fuel (iter_on xs) p = some (iter_on xs, iter_on (xs.filter p)) := by
  have h := elements_vec xs fuel h
  unfold elements at h
  simp [filter, iter_on, filter_loop_eq, h, foldl_insert_back_filter, value_init.init]

/-- Two vectors of equal length zip, and the zipper is traversed pairwise. -/
theorem zip_vec_vec (a : List α) (b : List β) (fuel : Nat) (hlen : a.length = b.length)
    (hfuel : a.length < fuel) :
    zip a b = Except.ok ⟨a, b⟩
      ∧ elements fuel (⟨a, b⟩ : zipper (List α) (List β)) = some (List.zip a b) := by
  refine ⟨?_, ?_⟩
  · simp [zip, zipper.zipper, vec_size, hlen]
  · exact elements_zipper ⟨a, b⟩ fuel a b (elements_vec a fuel hfuel)
      (elements_vec b fuel (by omega))

/-- C1: for every vector `xs` and function `f`, `map(f)` returns a new vector with
`xs.size()` elements whose i-th element is `f(xs[i])`, that is `[f(c) for c in xs]` in
the original order, and `xs` itself is unchanged afterwards. -/
theorem map_vector (xs : List α) (f : α → β) (fuel : Nat) (hfuel : xs.length < fuel) :
    ∃ out : List β,
      map (List β) fuel (iter_on xs) f = some (iter_on xs, iter_on out)
      ∧ out = xs.map f
      ∧ Container.size out = Container.size xs
      ∧ ∀ (i : Nat) (x : α), xs[i]? = some x → out[i]? = some (f x) := by
  refine ⟨xs.map f, map_of_elements xs f fuel xs (elements_vec xs fuel hfuel), rfl, ?_, ?_⟩
  · simp [vec_size]
  · intro i x hx
    simp [hx]

/-- C1 at `[1,2,3,4,5,6]` and `a + 1`, the first test of `main`. -/
theorem map_vector_witness :
    ∃ out : List Int,
      map (List Int) 7 (iter_on ([1, 2, 3, 4, 5, 6] : List Int)) (fun a : Int => a + 1)
        = some (iter_on [1, 2, 3, 4, 5, 6], iter_on out)
      ∧ out = [1, 2, 3, 4, 5, 6].map (fun a : Int => a + 1)
      ∧ Container.size out = Container.size ([1, 2, 3, 4, 5, 6] : List Int)
      ∧ ∀ (i : Nat) (x : Int), ([1, 2, 3, 4, 5, 6] : List Int)[i]? = some x →
          out[i]? = some (x + 1) :=
  map_vector [1, 2, 3, 4, 5, 6] (fun a : Int => a + 1) 7 (by decide)

/-- C2: for every vector `xs` and predicate `p`, `filter(p)` returns a new vector that is
the subsequence of `xs` of the elements satisfying `p`, in their original relative order:
every kept element satisfies `p`, every element satisfying `p` is kept with its
multiplicity, and `xs` itself is unchanged afterwards. -/
theorem filter_vector [DecidableEq α] (xs : List α) (p : α → Bool) (fuel : Nat)
    (hfuel : xs.length < fuel) :
    ∃ out : List α,
      filter fuel (iter_on xs) p = some (iter_on xs, iter_on out)
      ∧ out = xs.filter p
      ∧ List.Sublist out xs
      ∧ (∀ x ∈ out, p x = true)
      ∧ (∀ x, p x = true → out.count x = xs.count x) := by
  refine ⟨xs.filter p, filter_of_vec xs p fuel hfuel, rfl, List.filter_sublist xs, ?_, ?_⟩
  · intro x hx
    exact (List.mem_filter.mp hx).2
  · intro x hx
    simp [List.count_filter, hx]

/-- C2 at `[1,2,3,4,5,6]` and `a < 3`, the second test of `main`. -/
theorem filter_vector_witness :
    ∃ out : List Int,
      filter 7 (iter_on ([1, 2, 3, 4, 5, 6] : List Int)) (fun a : Int => decide (a < 3))
        = some (iter_on [1, 2, 3, 4, 5, 6], iter_on out)
      ∧ out = [1, 2, 3, 4, 5, 6].filter (fun a : Int => decide (a < 3))
      ∧ List.Sublist out [1, 2, 3, 4, 5, 6]
      ∧ (∀ x ∈ out, decide (x < 3) = true)
      ∧ (∀ x, decide (x < 3) = true → out.count x = [1, 2, 3, 4, 5, 6].count x) :=
  filter_vector [1, 2, 3, 4, 5, 6] (fun a : Int => decide (a < 3)) 7 (by decide)

/-- C4: constructing a zipper from `left` and `right`, directly or through `zip`, fails
with the size-mismatch error exactly when `left.size() != right.size()`; for two
containers of equal size, of any shapes and element types, it succeeds and the wrapper
holds exactly those two sides. -/
theorem zipper_size_check {T U I1 I2 E1 E2 : Type} [Container T I1 E1] [Container U I2 E2]
    (left : T) (right : U) :
    (zipper.zipper left right = Except.error size_mismatch_msg
        ↔ Container.size left ≠ Container.size right)
      ∧ (zip left right = Except.error size_mismatch_msg
        ↔ Container.size left ≠ Container.size right)
      ∧ (Container.size left = Container.size right →
          zipper.zipper left right = Except.ok ⟨left, right⟩
          ∧ zip left right = Except.ok ⟨left, right⟩)
      ∧ (∀ z, zip left right = Except.ok z → z.lhs_ = left ∧ z.rhs_ = right) := by
  by_cases h : Container.size left = Container.size right
  · simp [zip, zipper.zipper, h]
  · simp [zip, zipper.zipper, h]

/-- C4 at a vector paired with `range(3)` (equal sizes), and the same vector paired with
`range(2)` through the mismatch branch. -/
theorem zipper_size_check_witness :
    (Container.size ([1, 2, 3] : List Int) = Container.size (range1 3)
      ∧ zip ([1, 2, 3] : List Int) (range1 3) = Except.ok ⟨[1, 2, 3], range1 3⟩)
    ∧ (Container.size ([1, 2, 3] : List Int) ≠ Container.size (range1 2)
      ∧ zip ([1, 2, 3] : List Int) (range1 2) = Except.error size_mismatch_msg) :=
  ⟨⟨by decide, ((zipper_size_check ([1, 2, 3] : List Int) (range1 3)).2.2.1 (by decide)).2⟩,
    ⟨by decide, (zipper_size_check ([1, 2, 3] : List Int) (range1 2)).2.1.mpr (by decide)⟩⟩

/-- C5: for two vectors `a` and `b` of equal length `n` and a function `f` on pairs,
`map(f)` over `zip(a, b)` returns a vector of length `n` whose i-th element is
`f(a[i], b[i])`, leaving `a` and `b` unchanged; with the product, `[1,3,4,5,6]` and
`[2,5,6,7,8]` give `[2,15,24,35,48]`. -/
theorem map_zip (a : List α) (b : List β) (f : α × β → γ) (fuel : Nat)
    (hlen : a.length = b.length) (hfuel : a.length < fuel) :
    (∃ (z : zipper (List α) (List β)) (out : List γ),
      zip a b = Except.ok z
      ∧ map (List γ) fuel (iter_on z) f = some (iter_on ⟨a, b⟩, iter_on out)
      ∧ out = List.zipWith (fun x y => f (x, y)) a b
      ∧ out.length = a.length
      ∧ ∀ (i : Nat) (x : α) (y : β), a[i]? = some x → b[i]? = some y →
          out[i]? = some (f (x, y)))
    ∧ map (List Int) 6 (iter_on (⟨[1, 3, 4, 5, 6], [2, 5, 6, 7, 8]⟩ : zipper (List Int) (List Int)))
        (fun v => v.1 * v.2)
      = some (iter_on ⟨[1, 3, 4, 5, 6], [2, 5, 6, 7, 8]⟩, iter_on [2, 15, 24, 35, 48]) := by
  refine ⟨?_, by decide⟩
  obtain ⟨hz, hel⟩ := zip_vec_vec a b fuel hlen hfuel
  refine ⟨⟨a, b⟩, List.zipWith (fun x y => f (x, y)) a b, hz, ?_, rfl, ?_, ?_⟩
  · rw [map_of_elements _ f fuel _ hel, List.zip, List.map_zipWith]
  · simp [hlen]
  · intro i x y hx hy
    simp [List.getElem?_zipWith, hx, hy]

/-- C5 at the two vectors of the third test of `main`. -/
theorem map_zip_witness :
    ∃ (z : zipper (List Int) (List Int)) (out : List Int),
      zip ([1, 3, 4, 5, 6] : List Int) ([2, 5, 6, 7, 8] : List Int) = Except.ok z
      ∧ map (List Int) 6 (iter_on z) (fun v => v.1 * v.2)
          = some (iter_on ⟨[1, 3, 4, 5, 6], [2, 5, 6, 7, 8]⟩, iter_on out)
      ∧ out = List.zipWith (fun x y => x * y) [1, 3, 4, 5, 6] [2, 5, 6, 7, 8]
      ∧ out.length = ([1, 3, 4, 5, 6] : List Int).length
      ∧ ∀ (i : Nat) (x y : Int), ([1, 3, 4, 5, 6] : List Int)[i]? = some x →
          ([2, 5, 6, 7, 8] : List Int)[i]? = some y → out[i]? = some (x * y) :=
  (map_zip [1, 3, 4, 5, 6] [2, 5, 6, 7, 8] (fun v : Int × Int => v.1 * v.2) 6
    (by decide) (by decide)).1

/-- C8: for every vector `xs = [c0, ..., c(n-1)]`, initial value `initv` and binary
function `f`, `reduce(initv, f)` returns the left fold
`f(...f(f(initv, c0), c1)..., c(n-1))`; it returns `initv` when the vector is empty, and
`reduce(10, +)` over `[1,2,3]` is `16`. -/
theorem reduce_vector {TVal : Type} (xs : List α) (initv : TVal) (f : TVal → α → TVal)
    (fuel : Nat) (hfuel : xs.length < fuel) :
    reduce fuel (iter_on xs) initv f = some (xs.foldl f initv)
      ∧ reduce fuel (iter_on ([] : List α)) initv f = some initv
      ∧ reduce 4 (iter_on ([1, 2, 3] : List Int)) (10 : Int) (fun v1 v2 : Int => v1 + v2) = some 16 := by
  have h1 := elements_vec xs fuel hfuel
  have h0 := elements_vec ([] : List α) fuel (by simp; omega)
  unfold elements at h1 h0
  refine ⟨?_, ?_, by decide⟩
  · simp [reduce, iter_on, reduce_loop_eq, h1]
  · simp [reduce, iter_on, reduce_loop_eq, h0]

/-- C8 at `[1,2,3]`, seed `10` and addition, the reduce test of `main`. -/
theorem reduce_vector_witness :
    reduce 4 (iter_on ([1, 2, 3] : List Int)) (10 : Int) (fun v1 v2 : Int => v1 + v2)
      = some ([1, 2, 3].foldl (fun v1 v2 : Int => v1 + v2) 10) :=
  (reduce_vector [1, 2, 3] (10 : Int) (fun v1 v2 : Int => v1 + v2) 4 (by decide)).1

/-- The first element at which `p` holds is what `List.find?` returns. -/
theorem find?_of_index {E : Type} (p : E → Bool) :
    ∀ (l : List E) (i : Nat) (v : E), l[i]? = some v → p v = true →
      (∀ (j : Nat) (y : E), j < i → l[j]? = some y → p y = false) → l.find? p = some v := by
  intro l
  induction l with
  | nil => intro i v hv; simp at hv
  | cons a t ih =>
    intro i v hv hp hfirst
    cases i with
    | zero =>
      simp only [List.getElem?_cons_zero, Option.some.injEq] at hv
      subst hv
      simp [hp]
    | succ i =>
      have ha : p a = false := hfirst 0 a (Nat.succ_pos i) (by simp)
      rw [List.find?_cons_of_neg _ (by simp [ha])]
      refine ih i v (by simpa using hv) hp ?_
      intro j y hj hy
      exact hfirst (j + 1) y (by omega) (by simpa using hy)

/-- The result of `find_if` once the traversal of the input is known. -/
theorem find_if_of_elements {T I E : Type} [Iterator I] [Container T I E] (val_ : T)
    (p : E → Bool) (fuel : Nat) (l : List E) (h : elements fuel val_ = some l) :
    find_if fuel (iter_on val_) p =
      some (match l.find? p with
        | some v => Except.ok v
        | none => Except.error not_found_msg) :=
  find_if_loop_of_elements p val_ _ fuel _ l h

/-- A vector paired with `range(n)`, `n` its size, zips, and the traversal pairs each
element with its index. -/
theorem zip_vec_range (a : List α) (fuel : Nat) (hfuel : a.length < fuel)
    (hsz : a.length < 2 ^ SIZE_BITS) :
    zip a (range1 a.length) = Except.ok ⟨a, range1 a.length⟩
      ∧ elements fuel (⟨a, range1 a.length⟩ : zipper (List α) range_impl)
          = some (List.zip a ((List.range a.length).map (fun (k : Nat) => (k : Int)))) := by
  refine ⟨?_, ?_⟩
  · have : ((a.length : Int) % (2 ^ SIZE_BITS : Int)).toNat = a.length := by
      rw [Int.emod_eq_of_lt (by omega) (by exact_mod_cast hsz)]
      simp
    simp [zip, zipper.zipper, vec_size, range1_size, this]
  · have hr := elements_range (range1 a.length) fuel (by simp [range1]) (by simpa [range1] using hfuel)
    have := elements_zipper (⟨a, range1 a.length⟩ : zipper (List α) range_impl) fuel a _
      (elements_vec a fuel hfuel) hr
    simpa [range_values, range1] using this

/-- C9: over a container whose traversal yields `l`, if some element satisfies `p` then
`find_if(p)` returns the first element in iteration order that satisfies `p`: the
returned element satisfies `p` and no element before it does. The same over a vector.
Over `zip(vs, range(n))` with `n = vs.size()` and `p` testing `value == x`, the second
component of the result is the least index `i` with `vs[i] == x`. -/
theorem find_if_first :
    (∀ (T I E : Type) [Iterator I] [Container T I E] (val_ : T) (p : E → Bool) (fuel : Nat)
        (l : List E), elements fuel val_ = some l → (∃ x ∈ l, p x = true) →
        ∃ (pre : List E) (v : E) (post : List E), l = pre ++ v :: post ∧ p v = true ∧ (∀ y ∈ pre, p y = false)
          ∧ find_if fuel (iter_on val_) p = some (Except.ok v))
    ∧ (∀ (α : Type) [select_access_type_for α] (xs : List α) (p : α → Bool) (fuel : Nat),
        xs.length < fuel →
        (∃ x ∈ xs, p x = true) →
        ∃ (pre : List α) (v : α) (post : List α), xs = pre ++ v :: post ∧ p v = true ∧ (∀ y ∈ pre, p y = false)
          ∧ find_if fuel (iter_on xs) p = some (Except.ok v))
    ∧ (∀ (α : Type) [select_access_type_for α] [DecidableEq α] (vs : List α) (x : α)
        (i fuel : Nat), vs.length < fuel →
        vs.length < 2 ^ SIZE_BITS → vs[i]? = some x → (∀ j, j < i → vs[j]? ≠ some x) →
        ∃ z, zip vs (range1 vs.length) = Except.ok z
          ∧ find_if fuel (iter_on z) (fun v => v.1 == x) = some (Except.ok (x, (i : Int)))) := by
  have generic : ∀ (T I E : Type) [Iterator I] [Container T I E] (val_ : T) (p : E → Bool)
      (fuel : Nat) (l : List E), elements fuel val_ = some l → (∃ x ∈ l, p x = true) →
      ∃ (pre : List E) (v : E) (post : List E), l = pre ++ v :: post ∧ p v = true ∧ (∀ y ∈ pre, p y = false)
        ∧ find_if fuel (iter_on val_) p = some (Except.ok v) := by
    intro T I E _ _ val_ p fuel l hl hex
    cases hf : l.find? p with
    | none =>
      obtain ⟨x, hx, hpx⟩ := hex
      have := List.find?_eq_none.mp hf x hx
      exact absurd hpx this
    | some v =>
      obtain ⟨hpv, pre, post, hsplit, hpre⟩ := List.find?_eq_some.mp hf
      refine ⟨pre, v, post, hsplit, hpv, ?_, ?_⟩
      · intro y hy
        simpa using hpre y hy
      · rw [find_if_of_elements val_ p fuel l hl, hf]
  refine ⟨generic, ?_, ?_⟩
  · intro α _ xs p fuel hfuel hex
    exact generic _ _ _ xs p fuel xs (elements_vec xs fuel hfuel) hex
  · intro α _ _ vs x i fuel hfuel hsz hi hleast
    obtain ⟨hz, hel⟩ := zip_vec_range vs fuel hfuel hsz
    refine ⟨_, hz, ?_⟩
    rw [find_if_of_elements _ _ fuel _ hel]
    have hlt : i < vs.length := by
      rcases Nat.lt_or_ge i vs.length with h | h
      · exact h
      · rw [List.getElem?_eq_none h] at hi; simp at hi
    rw [find?_of_index (fun v : α × Int => v.1 == x) _ i (x, (i : Int))]
    · rw [List.getElem?_zip_eq_some]
      simp [hi, List.getElem?_range hlt]
    · simp
    · intro j y hj hy
      rw [List.getElem?_zip_eq_some] at hy
      have := hleast j hj
      rw [hy.1] at this
      simpa using this

/-- C9 at `zip([1,2,3], range(3))` and `value == 2`, the search test of `main`. -/
theorem find_if_first_witness :
    ∃ z, zip ([1, 2, 3] : List Int) (range1 ([1, 2, 3] : List Int).length) = Except.ok z
      ∧ find_if 4 (iter_on z) (fun v => v.1 == 2) = some (Except.ok ((2 : Int), ((1 : Nat) : Int))) :=
  find_if_first.2.2 Int [1, 2, 3] 2 1 4 (by decide) (by decide) (by decide) (by decide)

/-- C10: over a container whose traversal yields `l`, `find_if(p)` signals the not-found
error exactly when no element satisfies `p`; in that case it returns no value at all,
and any value it does return is an element that satisfies `p`. The same over a vector;
over the empty vector it always fails. -/
theorem find_if_not_found :
    (∀ (T I E : Type) [Iterator I] [Container T I E] (val_ : T) (p : E → Bool) (fuel : Nat)
        (l : List E), elements fuel val_ = some l →
        (find_if fuel (iter_on val_) p = some (Except.error not_found_msg)
            ↔ ∀ x ∈ l, p x = false)
        ∧ ((∀ x ∈ l, p x = false) → ∀ v, find_if fuel (iter_on val_) p ≠ some (Except.ok v))
        ∧ (∀ v, find_if fuel (iter_on val_) p = some (Except.ok v) → v ∈ l ∧ p v = true))
    ∧ (∀ (α : Type) [select_access_type_for α] (xs : List α) (p : α → Bool) (fuel : Nat),
        xs.length < fuel →
        (find_if fuel (iter_on xs) p = some (Except.error not_found_msg)
            ↔ ∀ x ∈ xs, p x = false))
    ∧ (∀ (α : Type) [select_access_type_for α] (p : α → Bool) (fuel : Nat), 0 < fuel →
        find_if fuel (iter_on ([] : List α)) p = some (Except.error not_found_msg)) := by
  have generic : ∀ (T I E : Type) [Iterator I] [Container T I E] (val_ : T) (p : E → Bool)
      (fuel : Nat) (l : List E), elements fuel val_ = some l →
      (find_if fuel (iter_on val_) p = some (Except.error not_found_msg)
          ↔ ∀ x ∈ l, p x = false)
      ∧ ((∀ x ∈ l, p x = false) → ∀ v, find_if fuel (iter_on val_) p ≠ some (Except.ok v))
      ∧ (∀ v, find_if fuel (iter_on val_) p = some (Except.ok v) → v ∈ l ∧ p v = true) := by
    intro T I E _ _ val_ p fuel l hl
    rw [find_if_of_elements val_ p fuel l hl]
    cases hf : l.find? p with
    | none =>
      have hnone : ∀ x ∈ l, p x = false := by
        intro x hx
        simpa using List.find?_eq_none.mp hf x hx
      refine ⟨⟨fun _ => hnone, fun _ => rfl⟩, ?_, ?_⟩
      · intro _ v h
        simp at h
      · intro v h
        simp at h
    | some v =>
      have hv := List.find?_eq_some.mp hf
      obtain ⟨hpv, pre, post, hsplit, -⟩ := hv
      have hmem : v ∈ l := by rw [hsplit]; simp
      refine ⟨?_, ?_, ?_⟩
      · simp only [Option.some.injEq, reduceCtorEq, false_iff]
        intro hall
        rw [hall v hmem] at hpv
        exact absurd hpv (by simp)
      · intro hall
        rw [hall v hmem] at hpv
        exact absurd hpv (by simp)
      · intro w hw
        simp only [Option.some.injEq, Except.ok.injEq] at hw
        subst hw
        exact ⟨hmem, hpv⟩
  refine ⟨generic, ?_, ?_⟩
  · intro α _ xs p fuel hfuel
    exact (generic _ _ _ xs p fuel xs (elements_vec xs fuel hfuel)).1
  · intro α _ p fuel hfuel
    exact (generic _ _ _ ([] : List α) p fuel [] (elements_vec [] fuel hfuel)).1.mpr (by simp)

/-- C10 at `zip([1,2,3], range(3))` searched for the absent value `7`, and at the empty
vector. -/
theorem find_if_not_found_witness :
    find_if 4 (iter_on ([1, 2, 3] : List Int)) (fun v => v == 7)
        = some (Except.error not_found_msg)
    ∧ find_if 1 (iter_on ([] : List Int)) (fun v => v == 7)
        = some (Except.error not_found_msg) :=
  ⟨(find_if_not_found.2.1 Int [1, 2, 3] (fun v => v == 7) 4 (by decide)).mpr (by decide),
    find_if_not_found.2.2 Int (fun v => v == 7) 1 (by decide)⟩

/-- The loop of `filter_inplace` over a vector, started at offset `|pa|`, keeps the
prefix and filters the suffix. -/
theorem filter_inplace_loop_vec (p : α → Bool) (sa : List α) :
    ∀ (pa : List α) (fuel : Nat), sa.length < fuel →
      filter_inplace_loop p fuel (pa ++ sa) (⟨pa.length⟩ : vec_iterator)
        = some (pa ++ sa.filter p) := by
  induction sa with
  | nil =>
    intro pa fuel hf
    obtain ⟨n, rfl⟩ : ∃ n, fuel = n + 1 := ⟨fuel - 1, by simp at hf; omega⟩
    simp [filter_inplace_loop, vec_ne, vec_end]
  | cons x sa ih =>
    intro pa fuel hf
    obtain ⟨n, rfl⟩ : ∃ n, fuel = n + 1 := ⟨fuel - 1, by omega⟩
    have hn : sa.length < n := by simp at hf; omega
    have hd : (pa ++ x :: sa)[pa.length]? = some x := by
      rw [List.getElem?_append_right (Nat.le_refl _)]
      simp
    have he : (pa ++ x :: sa).eraseIdx pa.length = pa ++ sa := by
      rw [List.eraseIdx_append_of_length_le (Nat.le_refl _)]
      simp
    have hkeep := ih (pa ++ [x]) n hn
    simp only [List.length_append, List.length_singleton, List.append_assoc,
      List.singleton_append] at hkeep
    simp only [filter_inplace_loop, vec_ne, vec_end, vec_deref, vec_erase, vec_incr, hd]
    cases hp : p x with
    | true => simp [hkeep, hp]
    | false => simp [he, ih pa n hn, hp]

/-- The result of `filter_inplace` over a vector. -/
theorem filter_inplace_of_vec (xs : List α) (p : α → Bool) (fuel : Nat)
    (h : xs.length < fuel) :
    filter_inplace fuel (iter_on xs) p = some (iter_on (xs.filter p)) := by
  have := filter_inplace_loop_vec p xs [] fuel h
  simp only [List.nil_append, List.length_nil] at this
  simp [filter_inplace, iter_on, vec_begin, this]

/-- C3: for every vector `xs` and predicate `p`, `filter_inplace(p)` leaves in `xs`
exactly the container that `filter(p)` returns for the original `xs`, same elements in
the same order; and `map(f)` followed by `filter_inplace(p)` on `ys` yields
`filter p (map f ys)`. -/
theorem filter_inplace_vector (xs : List α) (ys : List β) (f : β → α) (p : α → Bool)
    (fuel : Nat) (hxs : xs.length < fuel) (hys : ys.length < fuel) :
    (∃ out : List α,
      filter fuel (iter_on xs) p = some (iter_on xs, iter_on out)
      ∧ filter_inplace fuel (iter_on xs) p = some (iter_on out)
      ∧ out = xs.filter p)
    ∧ ((map (List α) fuel (iter_on ys) f).bind (fun r => filter_inplace fuel r.2 p)
        = some (iter_on ((ys.map f).filter p))) := by
  refine ⟨⟨xs.filter p, filter_of_vec xs p fuel hxs, filter_inplace_of_vec xs p fuel hxs, rfl⟩,
    ?_⟩
  rw [map_of_elements ys f fuel ys (elements_vec ys fuel hys)]
  simp only [Option.some_bind]
  exact filter_inplace_of_vec (ys.map f) p fuel (by simpa using hys)

/-- C3 at the chain `map(a + 1)` then `filter_inplace(v <= 4)` on `[1,2,3,4,5,6]`, the
first test of `main`, which yields `[2,3,4]`. -/
theorem filter_inplace_vector_witness :
    (map (List Int) 7 (iter_on ([1, 2, 3, 4, 5, 6] : List Int)) (fun a : Int => a + 1)).bind
        (fun r => filter_inplace 7 r.2 (fun v : Int => decide (v ≤ 4)))
      = some (iter_on [2, 3, 4]) :=
  (filter_inplace_vector [2, 3, 4, 5, 6, 7] [1, 2, 3, 4, 5, 6] (fun a : Int => a + 1)
    (fun v : Int => decide (v ≤ 4)) 7 (by decide) (by decide)).2

/-- Writing at offset `|pa|` replaces the head of the suffix. -/
theorem set_at_prefix (pa sa : List α) (x v : α) :
    (pa ++ x :: sa).set pa.length v = pa ++ v :: sa := by
  rw [List.set_append_right _ _ (Nat.le_refl _)]
  simp

/-- Reading at offset `|pa|` yields the head of the suffix. -/
theorem get_at_prefix (pa sa : List α) (x : α) : (pa ++ x :: sa)[pa.length]? = some x := by
  rw [List.getElem?_append_right (Nat.le_refl _)]
  simp

/-- The loop of `map_inplace` over two zipped vectors, started at offsets `|pa|` and
`|pb|`, keeps the prefixes and rewrites the suffixes pairwise. -/
theorem map_inplace_loop_zip_vec (f : α × β → α × β)
    (hα : select_access_type_for.by_value α = false)
    (hβ : select_access_type_for.by_value β = false) (sa : List α) :
    ∀ (sb : List β) (pa : List α) (pb : List β) (fuel n1 n2 : Nat),
      sa.length = sb.length → n1 = pa.length + sa.length → n2 = pb.length + sb.length →
      sa.length < fuel →
      map_inplace_loop f (⟨⟨n1⟩, ⟨n2⟩⟩ : zip_iterator vec_iterator vec_iterator) fuel
        (⟨pa ++ sa, pb ++ sb⟩ : zipper (List α) (List β)) ⟨⟨pa.length⟩, ⟨pb.length⟩⟩
      = some ⟨pa ++ (List.zip sa sb).map (fun v => (f v).1),
          pb ++ (List.zip sa sb).map (fun v => (f v).2)⟩ := by
  induction sa with
  | nil =>
    intro sb pa pb fuel n1 n2 hlen h1 h2 hf
    obtain ⟨n, rfl⟩ : ∃ n, fuel = n + 1 := ⟨fuel - 1, by simp at hf; omega⟩
    have hsb : sb = [] := by
      cases sb with
      | nil => rfl
      | cons y t => simp at hlen
    subst hsb
    simp [map_inplace_loop, zip_ne, vec_eq, h1]
  | cons x sa ih =>
    intro sb pa pb fuel n1 n2 hlen h1 h2 hf
    obtain ⟨n, rfl⟩ : ∃ n, fuel = n + 1 := ⟨fuel - 1, by omega⟩
    cases sb with
    | nil => simp at hlen
    | cons y sb =>
      simp only [List.length_cons] at hlen h1 h2 hf
      have hrec := ih sb (pa ++ [(f (x, y)).1]) (pb ++ [(f (x, y)).2]) n n1 n2 (by omega)
        (by simp; omega) (by simp; omega) (by omega)
      simp only [List.length_append, List.length_singleton, List.append_assoc,
        List.singleton_append] at hrec
      have hne1 : (pa.length == n1) = false := by simp; omega
      have hne2 : (pb.length == n2) = false := by simp; omega
      simp only [map_inplace_loop, zip_ne, vec_eq, hne1, hne2, zipper_deref, vec_deref,
        get_at_prefix, zipper_assign, vec_assign_access _ _ _ hα, vec_assign_access _ _ _ hβ,
        set_at_prefix, zip_incr, vec_incr]
      simp [hrec]

/-- The result of `map_inplace` over two zipped vectors of equal length. -/
theorem map_inplace_of_zip_vec (a : List α) (b : List β) (f : α × β → α × β) (fuel : Nat)
    (hα : select_access_type_for.by_value α = false)
    (hβ : select_access_type_for.by_value β = false)
    (hlen : a.length = b.length) (hfuel : a.length < fuel) :
    map_inplace fuel (iter_on (⟨a, b⟩ : zipper (List α) (List β))) f
      = some (iter_on ⟨(List.zip a b).map (fun v => (f v).1),
          (List.zip a b).map (fun v => (f v).2)⟩) := by
  have := map_inplace_loop_zip_vec f hα hβ a b [] [] fuel a.length b.length hlen (by simp)
    (by simp) hfuel
  simp only [List.nil_append, List.length_nil] at this
  simp [map_inplace, iter_on, zipper_begin, zipper_end, vec_begin, vec_end, this]

/-- C6 fails at a `std::vector<bool>` side: over `zip([true], [1])` with
`f(x, y) = (!x, y + 1)`, `map_inplace(f)` writes `2` into the second vector and leaves
the first at `[true]`, whereas the first component of `f(true, 1)` is `false`. -/
theorem map_inplace_zip_vector_bool :
    zip ([true] : List Bool) ([1] : List Int) = Except.ok ⟨[true], [1]⟩
    ∧ map_inplace 2 (iter_on (⟨[true], [1]⟩ : zipper (List Bool) (List Int)))
        (fun v => (!v.1, v.2 + 1)) = some (iter_on ⟨[true], [2]⟩)
    ∧ ¬ ∃ (a1 : List Bool) (b1 : List Int),
        map_inplace 2 (iter_on (⟨[true], [1]⟩ : zipper (List Bool) (List Int)))
          (fun v => (!v.1, v.2 + 1)) = some (iter_on ⟨a1, b1⟩)
        ∧ a1[0]? = some ((fun v : Bool × Int => (!v.1, v.2 + 1)) (true, 1)).1 := by
  have hrun : map_inplace 2 (iter_on (⟨[true], [1]⟩ : zipper (List Bool) (List Int)))
      (fun v => (!v.1, v.2 + 1)) = some (iter_on ⟨[true], [2]⟩) := by decide
  refine ⟨by decide, hrun, ?_⟩
  rintro ⟨a1, b1, h, ha⟩
  rw [hrun] at h
  simp only [iter_on, Option.some.injEq, itertool_impl.mk.injEq, zipper.mk.injEq] at h
  obtain ⟨h1, -⟩ := h
  subst h1
  simp at ha

/-- C6, amended: for two vectors `a` and `b` of equal length `n` whose element types are
not `bool`, and a function `f` from pairs to pairs, `map_inplace(f)` over `zip(a, b)`
leaves both vectors with length `n`, and for every `i < n` the new `a[i]` is the first
and the new `b[i]` the second component of `f(old a[i], old b[i])`. -/
theorem map_inplace_zip (a : List α) (b : List β) (f : α × β → α × β) (fuel : Nat)
    (hα : select_access_type_for.by_value α = false)
    (hβ : select_access_type_for.by_value β = false)
    (hlen : a.length = b.length) (hfuel : a.length < fuel) :
    ∃ (z : zipper (List α) (List β)) (a1 : List α) (b1 : List β),
      zip a b = Except.ok z
      ∧ map_inplace fuel (iter_on z) f = some (iter_on ⟨a1, b1⟩)
      ∧ a1.length = a.length ∧ b1.length = a.length
      ∧ ∀ (i : Nat) (x : α) (y : β), a[i]? = some x → b[i]? = some y →
          a1[i]? = some (f (x, y)).1 ∧ b1[i]? = some (f (x, y)).2 := by
  refine ⟨⟨a, b⟩, _, _, (zip_vec_vec a b fuel hlen hfuel).1,
    map_inplace_of_zip_vec a b f fuel hα hβ hlen hfuel, by simp [hlen], by simp [hlen], ?_⟩
  intro i x y hx hy
  have hz : (List.zip a b)[i]? = some (x, y) := List.getElem?_zip_eq_some.mpr ⟨hx, hy⟩
  simp [hz]

/-- C6 at the two vectors of the fourth test of `main` with `(a + 1, b + 1)`. -/
theorem map_inplace_zip_witness :
    ∃ (z : zipper (List Int) (List Int)) (a1 b1 : List Int),
      zip ([1, 3, 4, 5, 6] : List Int) ([2, 5, 6, 7, 8] : List Int) = Except.ok z
      ∧ map_inplace 6 (iter_on z) (fun v => (v.1 + 1, v.2 + 1)) = some (iter_on ⟨a1, b1⟩)
      ∧ a1.length = ([1, 3, 4, 5, 6] : List Int).length
      ∧ b1.length = ([1, 3, 4, 5, 6] : List Int).length
      ∧ ∀ (i : Nat) (x y : Int), ([1, 3, 4, 5, 6] : List Int)[i]? = some x →
          ([2, 5, 6, 7, 8] : List Int)[i]? = some y →
          a1[i]? = some (x + 1) ∧ b1[i]? = some (y + 1) :=
  map_inplace_zip [1, 3, 4, 5, 6] [2, 5, 6, 7, 8] (fun v : Int × Int => (v.1 + 1, v.2 + 1)) 6
    rfl rfl (by decide) (by decide)

/-- The values `v, v + 1, ..., v + n` split into `v` and the values from `v + 1`. -/
theorem range_map_succ (v : Int) (n : Nat) :
    (List.range (n + 1)).map (fun (k : Nat) => v + (k : Int))
      = v :: (List.range n).map (fun (k : Nat) => v + 1 + (k : Int)) := by
  simp [List.range_succ_eq_map, Function.comp_def, add_assoc, add_comm (1 : Int)]

/-- The loop of `map_inplace` over a vector zipped with a range, started at offset `|pa|`
and counter `v`, keeps the prefix, rewrites the suffix with the counter values
`v, v + 1, ...` and leaves the range as it is. -/
theorem map_inplace_loop_zip_range (f : α × Int → α × Int)
    (hα : select_access_type_for.by_value α = false) (r : range_impl) (sa : List α) :
    ∀ (pa : List α) (fuel n1 : Nat) (e v : Int),
      n1 = pa.length + sa.length → e = v + (sa.length : Int) → sa.length < fuel →
      map_inplace_loop f (⟨⟨n1⟩, ⟨e⟩⟩ : zip_iterator vec_iterator range_iterator) fuel
        (⟨pa ++ sa, r⟩ : zipper (List α) range_impl) ⟨⟨pa.length⟩, ⟨v⟩⟩
      = some ⟨pa ++ (List.zip sa ((List.range sa.length).map
          (fun (k : Nat) => v + (k : Int)))).map (fun w => (f w).1), r⟩ := by
  induction sa with
  | nil =>
    intro pa fuel n1 e v h1 h2 hf
    obtain ⟨n, rfl⟩ : ∃ n, fuel = n + 1 := ⟨fuel - 1, by simp at hf; omega⟩
    simp [map_inplace_loop, zip_ne, vec_eq, h1]
  | cons x sa ih =>
    intro pa fuel n1 e v h1 h2 hf
    obtain ⟨n, rfl⟩ : ∃ n, fuel = n + 1 := ⟨fuel - 1, by omega⟩
    simp only [List.length_cons] at h1 h2 hf
    have hrec := ih (pa ++ [(f (x, v)).1]) n n1 e (v + 1) (by simp; omega)
      (by push_cast at h2; omega) (by omega)
    simp only [List.length_append, List.length_singleton, List.append_assoc,
      List.singleton_append] at hrec
    have hne1 : (pa.length == n1) = false := by simp; omega
    have hne2 : (v == e) = false := by simp; push_cast at h2; omega
    simp only [map_inplace_loop, zip_ne, vec_eq, range_eq, hne1, hne2, zipper_deref, vec_deref,
      range_deref, get_at_prefix, zipper_assign, vec_assign_access _ _ _ hα,
      range_assign_access, set_at_prefix, zip_incr, vec_incr, range_incr]
    simp [hrec, range_map_succ]

/-- The result of `map_inplace` over a vector zipped with `range(n)`, `n` its size. -/
theorem map_inplace_of_zip_range (a : List α) (f : α × Int → α × Int) (fuel : Nat)
    (hα : select_access_type_for.by_value α = false) (hfuel : a.length < fuel) :
    map_inplace fuel (iter_on (⟨a, range1 a.length⟩ : zipper (List α) range_impl)) f
      = some (iter_on ⟨(List.zip a ((List.range a.length).map
          (fun (k : Nat) => (k : Int)))).map (fun w => (f w).1), range1 a.length⟩) := by
  have := map_inplace_loop_zip_range f hα (range1 a.length) a [] fuel a.length a.length 0
    (by simp) (by simp) hfuel
  simp only [List.nil_append, List.length_nil, zero_add] at this
  simp only [map_inplace, iter_on, zipper_begin, zipper_end, vec_begin, vec_end, range_begin,
    range_end]
  simp only [range1] at this ⊢
  rw [this]

/-- C7 fails at a `std::vector<bool>`: over `zip([true, false], range(2))` with
`f(x, i) = (!x, i)`, `map_inplace(f)` leaves the vector at `[true, false]`, whereas the
first component of `f(true, 0)` is `false`. -/
theorem map_inplace_zip_range_vector_bool :
    zip ([true, false] : List Bool) (range1 2) = Except.ok ⟨[true, false], range1 2⟩
    ∧ map_inplace 3 (iter_on (⟨[true, false], range1 2⟩ : zipper (List Bool) range_impl))
        (fun v => (!v.1, v.2)) = some (iter_on ⟨[true, false], range1 2⟩)
    ∧ ¬ ∃ (a1 : List Bool) (r1 : range_impl),
        map_inplace 3 (iter_on (⟨[true, false], range1 2⟩ : zipper (List Bool) range_impl))
          (fun v => (!v.1, v.2)) = some (iter_on ⟨a1, r1⟩)
        ∧ a1[0]? = some ((fun v : Bool × Int => (!v.1, v.2)) (true, 0)).1 := by
  have hrun : map_inplace 3
      (iter_on (⟨[true, false], range1 2⟩ : zipper (List Bool) range_impl))
      (fun v => (!v.1, v.2)) = some (iter_on ⟨[true, false], range1 2⟩) := by decide
  refine ⟨by decide, hrun, ?_⟩
  rintro ⟨a1, r1, h, ha⟩
  rw [hrun] at h
  simp only [iter_on, Option.some.injEq, itertool_impl.mk.injEq, zipper.mk.injEq] at h
  obtain ⟨h1, -⟩ := h
  subst h1
  simp at ha

/-- C7, amended: for a vector `a` of length `n` whose element type is not `bool` and a
function `f` from pairs to pairs,
`map_inplace(f)` over `zip(a, range(n))` updates only the vector: afterwards `a[i]` is
the first component of `f(old a[i], i)` for every `i < n`, whatever second components `f`
returned, and the range still has the bounds `0` and `n`, size `n` and values
`0, ..., n - 1`. -/
theorem map_inplace_zip_range (a : List α) (f : α × Int → α × Int) (fuel : Nat)
    (hα : select_access_type_for.by_value α = false)
    (hfuel : a.length < fuel) (hsz : a.length < 2 ^ SIZE_BITS) :
    ∃ (z : zipper (List α) range_impl) (a1 : List α) (r1 : range_impl),
      zip a (range1 a.length) = Except.ok z
      ∧ map_inplace fuel (iter_on z) f = some (iter_on ⟨a1, r1⟩)
      ∧ a1.length = a.length
      ∧ (∀ (i : Nat) (x : α), a[i]? = some x → a1[i]? = some (f (x, (i : Int))).1)
      ∧ r1 = range1 a.length
      ∧ r1.begin_ = 0 ∧ r1.end_ = (a.length : Int)
      ∧ Container.size r1 = a.length
      ∧ elements fuel r1 = some ((List.range a.length).map (fun (k : Nat) => (k : Int))) := by
  refine ⟨⟨a, range1 a.length⟩, _, range1 a.length, (zip_vec_range a fuel hfuel hsz).1,
    map_inplace_of_zip_range a f fuel hα hfuel, by simp, ?_, rfl, rfl, rfl, ?_, ?_⟩
  · intro i x hx
    have hlt : i < a.length := by
      rcases Nat.lt_or_ge i a.length with h | h
      · exact h
      · rw [List.getElem?_eq_none h] at hx; simp at hx
    have hz : (List.zip a ((List.range a.length).map (fun (k : Nat) => (k : Int))))[i]?
        = some (x, (i : Int)) := by
      rw [List.getElem?_zip_eq_some]
      simp [hx, List.getElem?_range hlt]
    simp [hz]
  · rw [range1_size]
    rw [Int.emod_eq_of_lt (by omega) (by exact_mod_cast hsz)]
    simp
  · have := elements_range (range1 a.length) fuel (by simp [range1])
      (by simpa [range1] using hfuel)
    simpa [range_values, range1] using this

/-- C7 at `zip([2,5,6,7,8], range(5))` with `(a + i, i + 100)`: the vector becomes
`[2,6,8,10,12]` as in the fifth test of `main`, although `f` returns other indices. -/
theorem map_inplace_zip_range_witness :
    ∃ (z : zipper (List Int) range_impl) (a1 : List Int) (r1 : range_impl),
      zip ([2, 5, 6, 7, 8] : List Int) (range1 ([2, 5, 6, 7, 8] : List Int).length)
        = Except.ok z
      ∧ map_inplace 6 (iter_on z) (fun v => (v.1 + v.2, v.2 + 100)) = some (iter_on ⟨a1, r1⟩)
      ∧ a1.length = ([2, 5, 6, 7, 8] : List Int).length
      ∧ (∀ (i : Nat) (x : Int), ([2, 5, 6, 7, 8] : List Int)[i]? = some x →
          a1[i]? = some (x + (i : Int)))
      ∧ r1 = range1 ([2, 5, 6, 7, 8] : List Int).length
      ∧ r1.begin_ = 0 ∧ r1.end_ = (([2, 5, 6, 7, 8] : List Int).length : Int)
      ∧ Container.size r1 = ([2, 5, 6, 7, 8] : List Int).length
      ∧ elements 6 r1 = some ((List.range ([2, 5, 6, 7, 8] : List Int).length).map
          (fun (k : Nat) => (k : Int))) :=
  map_inplace_zip_range [2, 5, 6, 7, 8] (fun v : Int × Int => (v.1 + v.2, v.2 + 100)) 6
    rfl (by decide) (by decide)

/-! ## The test driver `test/main.cpp` -/

/-- The first test: `map(a + 1)` then `filter_inplace(v <= 4)` on `[1,2,3,4,5,6]`. -/
theorem main_map_filter_inplace :
    (map (List Int) 7 (iter_on ([1, 2, 3, 4, 5, 6] : List Int)) (fun a => a + 1)).bind
        (fun r => (filter_inplace 7 r.2 (fun v => decide (v ≤ 4))).map (fun o => (r.1, get o)))
      = some (iter_on [1, 2, 3, 4, 5, 6], [2, 3, 4]) := by
  decide

/-- The second test: `filter(a < 3)` on `[1,2,3,4,5,6]`. -/
theorem main_filter :
    (filter 7 (iter_on ([1, 2, 3, 4, 5, 6] : List Int)) (fun a => decide (a < 3))).map
        (fun r => get r.2) = some [1, 2] := by
  decide

/-- The fourth test: `map_inplace` with `(a + 1, b + 1)` over two zipped vectors. -/
theorem main_zip_map_inplace :
    map_inplace 6 (iter_on (⟨[1, 3, 4, 5, 6], [2, 5, 6, 7, 8]⟩ : zipper (List Int) (List Int)))
        (fun v => (v.1 + 1, v.2 + 1))
      = some (iter_on ⟨[2, 4, 5, 6, 7], [3, 6, 7, 8, 9]⟩) := by
  decide

/-- The fifth test: `map_inplace` with `(a + i, i)` over a vector zipped with `range(5)`. -/
theorem main_zip_range_map_inplace :
    map_inplace 6 (iter_on (⟨[2, 5, 6, 7, 8], range1 5⟩ : zipper (List Int) range_impl))
        (fun v => (v.1 + v.2, v.2))
      = some (iter_on ⟨[2, 6, 8, 10, 12], range1 5⟩) := by
  decide

/-- The search test: `find_if(value == 2)` over `zip([1,2,3], range(3))`. -/
theorem main_find_if :
    find_if 4 (iter_on (⟨[1, 2, 3], range1 3⟩ : zipper (List Int) range_impl))
        (fun v => v.1 == 2) = some (Except.ok (2, 1)) := by
  decide

end claims

/-! ## Ranges, in-place adapters and the zipped erase -/

section claims_inplace

open itertool_impl

variable {α β γ : Type} [select_access_type_for α] [select_access_type_for β]

/-- The loop of `map_inplace` over a vector, started at offset `|pa|`, keeps the prefix
and rewrites the suffix. -/
theorem map_inplace_loop_vec (f : α → α) (sa : List α) :
    ∀ (pa : List α) (fuel n : Nat), n = pa.length + sa.length → sa.length < fuel →
      map_inplace_loop f (⟨n⟩ : vec_iterator) fuel (pa ++ sa) ⟨pa.length⟩
        = some (pa ++ sa.map f) := by
  induction sa with
  | nil =>
    intro pa fuel n hn hf
    obtain ⟨m, rfl⟩ : ∃ m, fuel = m + 1 := ⟨fuel - 1, by simp at hf; omega⟩
    simp [map_inplace_loop, vec_ne, hn]
  | cons x sa ih =>
    intro pa fuel n hn hf
    obtain ⟨m, rfl⟩ : ∃ m, fuel = m + 1 := ⟨fuel - 1, by omega⟩
    simp only [List.length_cons] at hn hf
    have hrec := ih (pa ++ [f x]) m n (by simp; omega) (by omega)
    simp only [List.length_append, List.length_singleton, List.append_assoc,
      List.singleton_append] at hrec
    have hne : (pa.length == n) = false := by simp; omega
    have hlt : pa.length < (pa ++ x :: sa).length := by simp
    simp only [map_inplace_loop, vec_ne, hne, vec_deref, get_at_prefix, vec_assign, hlt,
      set_at_prefix, vec_incr]
    simp [hrec]

/-- The result of `map_inplace` over a vector. -/
theorem map_inplace_of_vec (xs : List α) (f : α → α) (fuel : Nat) (h : xs.length < fuel) :
    map_inplace fuel (iter_on xs) f = some (iter_on (xs.map f)) := by
  have := map_inplace_loop_vec f xs [] fuel xs.length (by simp) h
  simp only [List.nil_append, List.length_nil] at this
  simp [map_inplace, iter_on, vec_begin, vec_end, this]

/-- C13: for every vector `xs` and function `f` from the element type to itself,
`map_inplace(f)` replaces every element `v` with `f(v)`: afterwards the vector has the
same length and its i-th element is `f(old xs[i])`, that is, it equals the container
`map(f)` returns for the original `xs`. -/
theorem map_inplace_vector (xs : List α) (f : α → α) (fuel : Nat) (hfuel : xs.length < fuel) :
    ∃ out : List α,
      map_inplace fuel (iter_on xs) f = some (iter_on out)
      ∧ out.length = xs.length
      ∧ (∀ (i : Nat) (x : α), xs[i]? = some x → out[i]? = some (f x))
      ∧ map (List α) fuel (iter_on xs) f = some (iter_on xs, iter_on out) := by
  refine ⟨xs.map f, map_inplace_of_vec xs f fuel hfuel, by simp, ?_,
    map_of_elements xs f fuel xs (elements_vec xs fuel hfuel)⟩
  intro i x hx
  simp [hx]

/-- C13 at `[1,2,3]` and `v * 2`, and at the `std::vector<bool>` `[true, false]` and
negation. -/
theorem map_inplace_vector_witness :
    (∃ out : List Int,
      map_inplace 4 (iter_on ([1, 2, 3] : List Int)) (fun v => v * 2) = some (iter_on out)
      ∧ out.length = ([1, 2, 3] : List Int).length
      ∧ (∀ (i : Nat) (x : Int), ([1, 2, 3] : List Int)[i]? = some x → out[i]? = some (x * 2))
      ∧ map (List Int) 4 (iter_on ([1, 2, 3] : List Int)) (fun v => v * 2)
          = some (iter_on [1, 2, 3], iter_on out))
    ∧ map_inplace 3 (iter_on [true, false]) (fun v => !v) = some (iter_on [false, true]) :=
  ⟨map_inplace_vector [1, 2, 3] (fun v : Int => v * 2) 4 (by decide), by decide⟩

/-- C17: for every range `r` and cursor `v`, `r.erase(v)` returns the cursor advanced by
one, `v + 1`, and has no side effect: the bounds, `size()` and the values the range
yields are unchanged. -/
theorem range_erase_advances (r : range_impl) (v : range_iterator) (fuel : Nat) :
    ∃ (r1 : range_impl) (v1 : range_iterator),
      Container.erase r v = some (r1, v1)
      ∧ v1 = Iterator.incr v
      ∧ v1.val_ = v.val_ + 1
      ∧ r1 = r
      ∧ r1.begin_ = r.begin_ ∧ r1.end_ = r.end_
      ∧ Container.size r1 = Container.size r
      ∧ elements fuel r1 = elements fuel r
      ∧ range_values r1 = range_values r :=
  ⟨r, ⟨v.val_ + 1⟩, rfl, rfl, rfl, rfl, rfl, rfl, rfl, rfl, rfl⟩

/-- Erasing at offset `|pa|` removes the head of the suffix. -/
theorem erase_at_prefix (pa sa : List α) (x : α) :
    (pa ++ x :: sa).eraseIdx pa.length = pa ++ sa := by
  rw [List.eraseIdx_append_of_length_le (Nat.le_refl _)]
  simp

/-- The loop of `filter_inplace` over two zipped vectors, started at offsets `|pa|` and
`|pb|`, keeps the prefixes and filters the suffixes as pairs. -/
theorem filter_inplace_loop_zip_vec (p : α × β → Bool) (sa : List α) :
    ∀ (sb : List β) (pa : List α) (pb : List β) (fuel : Nat),
      sa.length = sb.length → sa.length < fuel →
      filter_inplace_loop p fuel (⟨pa ++ sa, pb ++ sb⟩ : zipper (List α) (List β))
        ⟨⟨pa.length⟩, ⟨pb.length⟩⟩
      = some ⟨pa ++ ((List.zip sa sb).filter p).map Prod.fst,
          pb ++ ((List.zip sa sb).filter p).map Prod.snd⟩ := by
  induction sa with
  | nil =>
    intro sb pa pb fuel hlen hf
    obtain ⟨n, rfl⟩ : ∃ n, fuel = n + 1 := ⟨fuel - 1, by simp at hf; omega⟩
    have hsb : sb = [] := by
      cases sb with
      | nil => rfl
      | cons y t => simp at hlen
    subst hsb
    simp [filter_inplace_loop, zip_ne, vec_eq, zipper_end, vec_end]
  | cons x sa ih =>
    intro sb pa pb fuel hlen hf
    obtain ⟨n, rfl⟩ : ∃ n, fuel = n + 1 := ⟨fuel - 1, by omega⟩
    cases sb with
    | nil => simp at hlen
    | cons y sb =>
      simp only [List.length_cons] at hlen hf
      have hkeep := ih sb (pa ++ [x]) (pb ++ [y]) n (by omega) (by omega)
      simp only [List.length_append, List.length_singleton, List.append_assoc,
        List.singleton_append] at hkeep
      have hdrop := ih sb pa pb n (by omega) (by omega)
      have hne1 : (pa.length == (pa ++ x :: sa).length) = false := by simp
      have hne2 : (pb.length == (pb ++ y :: sb).length) = false := by simp
      have hlt1 : pa.length < (pa ++ x :: sa).length := by simp
      have hlt2 : pb.length < (pb ++ y :: sb).length := by simp
      simp only [filter_inplace_loop, zip_ne, vec_eq, zipper_end, vec_end, hne1, hne2,
        zipper_deref, vec_deref, get_at_prefix, zipper_erase, vec_erase, hlt1, hlt2,
        erase_at_prefix, zip_incr, vec_incr]
      cases hp : p (x, y) with
      | true => simp [hkeep, hp]
      | false => simp [hdrop, hp]

/-- The result of `filter_inplace` over two zipped vectors of equal length. -/
theorem filter_inplace_of_zip_vec (a : List α) (b : List β) (p : α × β → Bool) (fuel : Nat)
    (hlen : a.length = b.length) (hfuel : a.length < fuel) :
    filter_inplace fuel (iter_on (⟨a, b⟩ : zipper (List α) (List β))) p
      = some (iter_on ⟨((List.zip a b).filter p).map Prod.fst,
          ((List.zip a b).filter p).map Prod.snd⟩) := by
  have := filter_inplace_loop_zip_vec p a b [] [] fuel hlen hfuel
  simp only [List.nil_append, List.length_nil] at this
  simp [filter_inplace, iter_on, zipper_begin, vec_begin, this]

/-- C15: for two vectors `a` and `b` of equal length and a predicate `p` on pairs,
`filter_inplace(p)` over `zip(a, b)` erases in lockstep: afterwards `a` and `b` are the
first and second projections of the subsequence of the pairs `(a[i], b[i])` for which
`p` holds, in the original order, so both have the same length; and `zipper::erase` at
position `i` removes index `i` from both sides and returns the cursor of the element
that followed it on both sides. -/
theorem filter_inplace_zip (a : List α) (b : List β) (p : α × β → Bool) (fuel : Nat)
    (hlen : a.length = b.length) (hfuel : a.length < fuel) :
    (∃ (z : zipper (List α) (List β)) (a1 : List α) (b1 : List β),
      zip a b = Except.ok z
      ∧ filter_inplace fuel (iter_on z) p = some (iter_on ⟨a1, b1⟩)
      ∧ a1 = ((List.zip a b).filter p).map Prod.fst
      ∧ b1 = ((List.zip a b).filter p).map Prod.snd
      ∧ List.zip a1 b1 = (List.zip a b).filter p
      ∧ a1.length = b1.length)
    ∧ (∀ i : Nat, i < a.length →
        Container.erase (⟨a, b⟩ : zipper (List α) (List β)) ⟨⟨i⟩, ⟨i⟩⟩
          = some (⟨a.eraseIdx i, b.eraseIdx i⟩, ⟨⟨i⟩, ⟨i⟩⟩)) := by
  refine ⟨⟨⟨a, b⟩, _, _, (zip_vec_vec a b fuel hlen hfuel).1,
    filter_inplace_of_zip_vec a b p fuel hlen hfuel, rfl, rfl, ?_, by simp⟩, ?_⟩
  · exact (List.zip_of_prod rfl rfl).symm
  · intro i hi
    have hi2 : i < b.length := by omega
    simp [zipper_erase, vec_erase, hi, hi2]

/-- C15 at `zip([1,2,3,4], [10,20,30,40])` keeping the pairs with an even first
component: the vectors become `[2,4]` and `[20,40]`. -/
theorem filter_inplace_zip_witness :
    (∃ (z : zipper (List Int) (List Int)) (a1 b1 : List Int),
      zip ([1, 2, 3, 4] : List Int) ([10, 20, 30, 40] : List Int) = Except.ok z
      ∧ filter_inplace 5 (iter_on z) (fun v => v.1 % 2 == 0) = some (iter_on ⟨a1, b1⟩)
      ∧ a1 = ((List.zip [1, 2, 3, 4] [10, 20, 30, 40]).filter
          (fun v : Int × Int => v.1 % 2 == 0)).map Prod.fst
      ∧ b1 = ((List.zip [1, 2, 3, 4] [10, 20, 30, 40]).filter
          (fun v : Int × Int => v.1 % 2 == 0)).map Prod.snd
      ∧ List.zip a1 b1 = (List.zip [1, 2, 3, 4] [10, 20, 30, 40]).filter
          (fun v : Int × Int => v.1 % 2 == 0)
      ∧ a1.length = b1.length)
    ∧ filter_inplace 5
        (iter_on (⟨[1, 2, 3, 4], [10, 20, 30, 40]⟩ : zipper (List Int) (List Int)))
        (fun v => v.1 % 2 == 0) = some (iter_on ⟨[2, 4], [20, 40]⟩) :=
  ⟨(filter_inplace_zip [1, 2, 3, 4] [10, 20, 30, 40] (fun v : Int × Int => v.1 % 2 == 0) 5
    (by decide) (by decide)).1, by decide⟩

/-- The loop of `filter_inplace` over a vector zipped with a range, started at offset
`|pa|` and counter `v`: the counter advances on both branches, so the suffix is filtered
with the counter values `v, v + 1, ...`, and the range is left as it is. -/
theorem filter_inplace_loop_zip_range (p : α × Int → Bool) (r : range_impl) (sa : List α) :
    ∀ (pa : List α) (fuel : Nat) (v : Int), r.end_ = v + (sa.length : Int) →
      sa.length < fuel →
      filter_inplace_loop p fuel (⟨pa ++ sa, r⟩ : zipper (List α) range_impl)
        ⟨⟨pa.length⟩, ⟨v⟩⟩
      = some ⟨pa ++ ((List.zip sa ((List.range sa.length).map
          (fun (k : Nat) => v + (k : Int)))).filter p).map Prod.fst, r⟩ := by
  induction sa with
  | nil =>
    intro pa fuel v hv hf
    obtain ⟨n, rfl⟩ : ∃ n, fuel = n + 1 := ⟨fuel - 1, by simp at hf; omega⟩
    simp [filter_inplace_loop, zip_ne, vec_eq, zipper_end, vec_end]
  | cons x sa ih =>
    intro pa fuel v hv hf
    obtain ⟨n, rfl⟩ : ∃ n, fuel = n + 1 := ⟨fuel - 1, by omega⟩
    simp only [List.length_cons] at hv hf
    have hkeep := ih (pa ++ [x]) n (v + 1) (by push_cast at hv; omega) (by omega)
    simp only [List.length_append, List.length_singleton, List.append_assoc,
      List.singleton_append] at hkeep
    have hdrop := ih pa n (v + 1) (by push_cast at hv; omega) (by omega)
    have hne1 : (pa.length == (pa ++ x :: sa).length) = false := by simp
    have hne2 : (v == r.end_) = false := by simp; push_cast at hv; omega
    have hlt1 : pa.length < (pa ++ x :: sa).length := by simp
    simp only [filter_inplace_loop, zip_ne, vec_eq, range_eq, zipper_end, vec_end, range_end,
      hne1, hne2, zipper_deref, vec_deref, range_deref, get_at_prefix, zipper_erase,
      vec_erase, range_erase, hlt1, erase_at_prefix, zip_incr, vec_incr, range_incr]
    cases hp : p (x, v) with
    | true => simp [hkeep, hp, range_map_succ]
    | false => simp [hdrop, hp, range_map_succ]

/-- The result of `filter_inplace` over a vector zipped with `range(n)`, `n` its size. -/
theorem filter_inplace_of_zip_range (a : List α) (p : α × Int → Bool) (fuel : Nat)
    (hfuel : a.length < fuel) :
    filter_inplace fuel (iter_on (⟨a, range1 a.length⟩ : zipper (List α) range_impl)) p
      = some (iter_on ⟨((List.zip a ((List.range a.length).map
          (fun (k : Nat) => (k : Int)))).filter p).map Prod.fst, range1 a.length⟩) := by
  have := filter_inplace_loop_zip_range p (range1 a.length) a [] fuel 0 (by simp [range1])
    hfuel
  simp only [List.nil_append, List.length_nil, zero_add] at this
  simp only [filter_inplace, iter_on, zipper_begin, vec_begin, range_begin]
  simp only [range1] at this ⊢
  rw [this]

/-- C19: for a vector `a` of length `n` and a predicate `p` on (value, index) pairs,
`filter_inplace(p)` over `zip(a, range(n))` terminates and leaves in `a` the subsequence
of the original elements `a[i]` for which `p(a[i], i)` holds, `i` being the original index
of the element; the range is unchanged. -/
theorem filter_inplace_zip_range (a : List α) (p : α × Int → Bool) (fuel : Nat)
    (hfuel : a.length < fuel) (hsz : a.length < 2 ^ SIZE_BITS) :
    ∃ (z : zipper (List α) range_impl) (ps : List (α × Int)) (a1 : List α)
      (r1 : range_impl),
      zip a (range1 a.length) = Except.ok z
      ∧ filter_inplace fuel (iter_on z) p = some (iter_on ⟨a1, r1⟩)
      ∧ ps.length = a.length
      ∧ (∀ (i : Nat) (x : α), a[i]? = some x → ps[i]? = some (x, (i : Int)))
      ∧ a1 = (ps.filter p).map Prod.fst
      ∧ List.Sublist a1 a
      ∧ r1 = range1 a.length := by
  refine ⟨⟨a, range1 a.length⟩,
    List.zip a ((List.range a.length).map (fun (k : Nat) => (k : Int))), _, range1 a.length,
    (zip_vec_range a fuel hfuel hsz).1, filter_inplace_of_zip_range a p fuel hfuel,
    by simp, ?_, rfl, ?_, rfl⟩
  · intro i x hx
    have hlt : i < a.length := by
      rcases Nat.lt_or_ge i a.length with h | h
      · exact h
      · rw [List.getElem?_eq_none h] at hx; simp at hx
    rw [List.getElem?_zip_eq_some]
    simp [hx, List.getElem?_range hlt]
  · have h1 : List.Sublist
        (((List.zip a ((List.range a.length).map (fun (k : Nat) => (k : Int)))).filter p).map
          Prod.fst)
        ((List.zip a ((List.range a.length).map (fun (k : Nat) => (k : Int)))).map
          Prod.fst) :=
      (List.filter_sublist _).map Prod.fst
    rw [List.map_fst_zip _ _ (by simp)] at h1
    exact h1

/-- C19 at `zip([10,20,30], range(3))` keeping the pairs whose index is not `0`: the
element `20` moves to the front when `10` is erased and is still tested with its original
index `1`, so the vector becomes `[20,30]`. -/
theorem filter_inplace_zip_range_witness :
    (∃ (z : zipper (List Int) range_impl) (ps : List (Int × Int)) (a1 : List Int)
      (r1 : range_impl),
      zip ([10, 20, 30] : List Int) (range1 ([10, 20, 30] : List Int).length) = Except.ok z
      ∧ filter_inplace 4 (iter_on z) (fun v => v.2 != 0) = some (iter_on ⟨a1, r1⟩)
      ∧ ps.length = ([10, 20, 30] : List Int).length
      ∧ (∀ (i : Nat) (x : Int), ([10, 20, 30] : List Int)[i]? = some x →
          ps[i]? = some (x, (i : Int)))
      ∧ a1 = (ps.filter (fun v => v.2 != 0)).map Prod.fst
      ∧ List.Sublist a1 [10, 20, 30]
      ∧ r1 = range1 ([10, 20, 30] : List Int).length)
    ∧ filter_inplace 4 (iter_on (⟨[10, 20, 30], range1 3⟩ : zipper (List Int) range_impl))
        (fun v => v.2 != 0) = some (iter_on ⟨[20, 30], range1 3⟩) :=
  ⟨filter_inplace_zip_range [10, 20, 30] (fun v : Int × Int => v.2 != 0) 4 (by decide)
    (by decide), by decide⟩

/-- One more unit of fuel runs the loop condition of `filter_inplace` and, if it holds,
the loop body once. -/
theorem filter_inplace_loop_succ {T I E : Type} [Iterator I] [Container T I E]
    (f : E → Bool) (fuel : Nat) (val_ : T) (itr : I) :
    filter_inplace_loop f (fuel + 1) val_ itr =
      if Iterator.ne itr (Container.end val_) then
        (filter_inplace_body f val_ itr).bind (fun q => filter_inplace_loop f fuel q.1 q.2)
      else
        some val_ := by
  simp only [filter_inplace_loop, filter_inplace_body]
  split
  · cases Container.deref val_ itr with
    | none => rfl
    | some x =>
      cases hf : f x with
      | true => simp [hf]
      | false =>
        cases he : Container.erase val_ itr with
        | none => simp [hf, he]
        | some q => simp [hf, he]
  · rfl

/-- The loop body of `filter_inplace` over a vector at a cursor before the end: it erases
the element at the cursor and keeps the cursor, or keeps the vector and advances the
cursor; the distance to the end drops by one. -/
theorem filter_inplace_body_vec (p : α → Bool) (xs : List α) (i : Nat) (hi : i < xs.length) :
    ∃ (xs1 : List α) (i1 : Nat),
      filter_inplace_body p xs (⟨i⟩ : vec_iterator) = some (xs1, ⟨i1⟩)
      ∧ ((xs1 = xs.eraseIdx i ∧ i1 = i ∧ xs1.length + 1 = xs.length)
          ∨ (xs1 = xs ∧ i1 = i + 1))
      ∧ i1 ≤ xs1.length
      ∧ (xs1.length - i1) + 1 = xs.length - i := by
  have hd : xs[i]? = some xs[i] := List.getElem?_eq_getElem hi
  cases hp : p xs[i] with
  | true =>
    refine ⟨xs, i + 1, ?_, Or.inr ⟨rfl, rfl⟩, by omega, by omega⟩
    simp [filter_inplace_body, vec_deref, hd, hp, vec_incr]
  | false =>
    have hl : (xs.eraseIdx i).length + 1 = xs.length := by
      rw [List.length_eraseIdx, if_pos hi]
      omega
    refine ⟨xs.eraseIdx i, i, ?_, Or.inl ⟨rfl, rfl, hl⟩, by omega, by omega⟩
    simp [filter_inplace_body, vec_deref, hd, hp, vec_erase, hi]

/-- The loop of `filter_inplace` over a vector does not complete with fewer units of fuel
than there are elements left. -/
theorem filter_inplace_loop_vec_none (p : α → Bool) (sa : List α) :
    ∀ (pa : List α) (fuel : Nat), fuel ≤ sa.length →
      filter_inplace_loop p fuel (pa ++ sa) (⟨pa.length⟩ : vec_iterator) = none := by
  induction sa with
  | nil =>
    intro pa fuel hf
    have : fuel = 0 := by simpa using hf
    subst this
    rfl
  | cons x sa ih =>
    intro pa fuel hf
    cases fuel with
    | zero => rfl
    | succ n =>
      simp only [List.length_cons] at hf
      have hkeep := ih (pa ++ [x]) n (by omega)
      simp only [List.length_append, List.length_singleton, List.append_assoc,
        List.singleton_append] at hkeep
      have hdrop := ih pa n (by omega)
      have hlt : pa.length < (pa ++ x :: sa).length := by simp
      simp only [filter_inplace_loop, vec_ne, vec_end, vec_deref, vec_erase, vec_incr,
        get_at_prefix, erase_at_prefix, hlt]
      cases hp : p x with
      | true => simp [hkeep, hp]
      | false => simp [hdrop, hp]

/-- C18: for every vector `xs` and predicate `p` the loop of `filter_inplace` terminates.
The loop goes on exactly while the cursor differs from the re-evaluated `end()`; each
pass through its body erases the element at the cursor, shrinking the vector by one while
the cursor keeps its offset, or advances the cursor by one, so the distance from the
cursor to `end()` drops by one; and the body runs exactly `xs.size()` times: the run
completes with `xs.size() + 1` evaluations of the loop condition and with no fewer. -/
theorem filter_inplace_terminates (xs : List α) (p : α → Bool) :
    (∀ (fuel : Nat) (ys : List α) (i : Nat),
      filter_inplace_loop p (fuel + 1) ys (⟨i⟩ : vec_iterator) =
        if i ≠ ys.length then
          (filter_inplace_body p ys (⟨i⟩ : vec_iterator)).bind
            (fun q => filter_inplace_loop p fuel q.1 q.2)
        else
          some ys)
    ∧ (∀ (ys : List α) (i : Nat), i < ys.length →
        ∃ (ys1 : List α) (i1 : Nat),
          filter_inplace_body p ys (⟨i⟩ : vec_iterator) = some (ys1, ⟨i1⟩)
          ∧ ((ys1 = ys.eraseIdx i ∧ i1 = i ∧ ys1.length + 1 = ys.length)
              ∨ (ys1 = ys ∧ i1 = i + 1))
          ∧ i1 ≤ ys1.length
          ∧ (ys1.length - i1) + 1 = ys.length - i)
    ∧ (∀ fuel : Nat, xs.length < fuel →
        filter_inplace fuel (iter_on xs) p = some (iter_on (xs.filter p)))
    ∧ (∀ fuel : Nat, fuel ≤ xs.length → filter_inplace fuel (iter_on xs) p = none) := by
  refine ⟨?_, ?_, ?_, ?_⟩
  · intro fuel ys i
    rw [filter_inplace_loop_succ]
    simp [vec_ne, vec_end]
  · intro ys i hi
    exact filter_inplace_body_vec p ys i hi
  · intro fuel hfuel
    exact filter_inplace_of_vec xs p fuel hfuel
  · intro fuel hfuel
    have := filter_inplace_loop_vec_none p xs [] fuel hfuel
    simp only [List.nil_append, List.length_nil] at this
    simp [filter_inplace, iter_on, vec_begin, this]

/-- C18 at `[2,3,4,5,6,7]` and `v <= 4`: the run completes with `7` units of fuel and not
with `6`. -/
theorem filter_inplace_terminates_witness :
    filter_inplace 7 (iter_on ([2, 3, 4, 5, 6, 7] : List Int)) (fun v => decide (v ≤ 4))
        = some (iter_on ([2, 3, 4, 5, 6, 7].filter (fun v : Int => decide (v ≤ 4))))
    ∧ filter_inplace 6 (iter_on ([2, 3, 4, 5, 6, 7] : List Int)) (fun v => decide (v ≤ 4))
        = none :=
  ⟨(filter_inplace_terminates [2, 3, 4, 5, 6, 7] (fun v : Int => decide (v ≤ 4))).2.2.1 7
      (by decide),
    (filter_inplace_terminates [2, 3, 4, 5, 6, 7] (fun v : Int => decide (v ≤ 4))).2.2.2 6
      (by decide)⟩

/-- A successful `zip` holds the two sides, and their sizes agree. -/
theorem zip_ok {T U I1 I2 E1 E2 : Type} [Container T I1 E1] [Container U I2 E2]
    (l : T) (r : U) (z : zipper T U) (h : zip l r = Except.ok z) :
    z = ⟨l, r⟩ ∧ Container.size l = Container.size r := by
  unfold zip zipper.zipper at h
  by_cases hs : Container.size l = Container.size r
  · simp [hs] at h
    exact ⟨h.symm, hs⟩
  · simp [hs] at h

/-- An `erase` on two zipped vectors shortens both by one. -/
theorem erase_zip_vec_vec (z z1 : zipper (List α) (List β))
    (v v1 : zip_iterator vec_iterator vec_iterator) (h : Container.erase z v = some (z1, v1)) :
    z1.lhs_.length + 1 = z.lhs_.length ∧ z1.rhs_.length + 1 = z.rhs_.length := by
  rw [zipper_erase, vec_erase, vec_erase] at h
  by_cases h1 : v.iter1_.pos < z.lhs_.length
  · by_cases h2 : v.iter2_.pos < z.rhs_.length
    · simp only [h1, h2, if_true, Option.some.injEq, Prod.mk.injEq] at h
      obtain ⟨hz, -⟩ := h
      subst hz
      simp only [List.length_eraseIdx, h1, h2, if_true]
      omega
    · simp [h1, h2] at h
  · simp [h1] at h

/-- An `erase` on a vector zipped with a range shortens the vector by one and leaves the
range as it is. -/
theorem erase_zip_vec_range (z z1 : zipper (List α) range_impl)
    (v v1 : zip_iterator vec_iterator range_iterator)
    (h : Container.erase z v = some (z1, v1)) :
    z1.lhs_.length + 1 = z.lhs_.length ∧ z1.rhs_ = z.rhs_ := by
  rw [zipper_erase, vec_erase, range_erase] at h
  by_cases h1 : v.iter1_.pos < z.lhs_.length
  · simp only [h1, if_true, Option.some.injEq, Prod.mk.injEq] at h
    obtain ⟨hz, -⟩ := h
    subst hz
    simp only [List.length_eraseIdx, h1, if_true]
    exact ⟨by omega, trivial⟩
  · simp [h1] at h

/-- An `erase` on two zipped ranges leaves both as they are. -/
theorem erase_zip_range_range (z z1 : zipper range_impl range_impl)
    (v v1 : zip_iterator range_iterator range_iterator)
    (h : Container.erase z v = some (z1, v1)) : z1 = z := by
  rw [zipper_erase, range_erase, range_erase] at h
  simp only [Option.some.injEq, Prod.mk.injEq] at h
  exact h.1.symm

/-- C14 fails for a vector paired with a range: `zip([1], range(1))` succeeds, one `erase`
at the begin cursor, or `filter_inplace` with a predicate that is false, leaves the
vector empty and the range of size `1`, and `size()` then reports `0`. -/
theorem erase_breaks_size_invariant :
    zip ([1] : List Int) (range1 1) = Except.ok ⟨[1], range1 1⟩
    ∧ erase_reachable (⟨[1], range1 1⟩ : zipper (List Int) range_impl) ⟨[], range1 1⟩
    ∧ Container.size ([] : List Int) ≠ Container.size (range1 1)
    ∧ Container.size (⟨[], range1 1⟩ : zipper (List Int) range_impl)
        ≠ Container.size (range1 1)
    ∧ filter_inplace 2 (iter_on (⟨[1], range1 1⟩ : zipper (List Int) range_impl))
        (fun _ => false) = some (iter_on ⟨[], range1 1⟩) := by
  refine ⟨by decide, ?_, by decide, by decide, by decide⟩
  exact erase_reachable.erase ⟨[1], range1 1⟩ ⟨[], range1 1⟩ ⟨⟨0⟩, ⟨0⟩⟩ ⟨⟨0⟩, ⟨1⟩⟩
    erase_reachable.init rfl

/-- C14, amended: when both sides are vectors, or both are ranges, `left.size() ==
right.size()` holds in every state reached from a successful construction by `erase`
calls at valid cursors, so that `size()` equals the right side's size, and it holds after
`filter_inplace` over two vectors. When a vector is paired with a range, `erase` shortens
the vector by one and leaves the size of the range unchanged. -/
theorem erase_keeps_size_invariant :
    (∀ (a : List α) (b : List β) (z0 z : zipper (List α) (List β)),
        zip a b = Except.ok z0 → erase_reachable z0 z →
        Container.size z.lhs_ = Container.size z.rhs_
        ∧ Container.size z = Container.size z.rhs_)
    ∧ (∀ (r s : range_impl) (z0 z : zipper range_impl range_impl),
        zip r s = Except.ok z0 → erase_reachable z0 z →
        Container.size z.lhs_ = Container.size z.rhs_
        ∧ Container.size z = Container.size z.rhs_)
    ∧ (∀ (a : List α) (b : List β) (p : α × β → Bool) (fuel : Nat),
        a.length = b.length → a.length < fuel →
        ∃ z1 : zipper (List α) (List β),
          filter_inplace fuel (iter_on (⟨a, b⟩ : zipper (List α) (List β))) p
            = some (iter_on z1)
          ∧ Container.size z1.lhs_ = Container.size z1.rhs_)
    ∧ (∀ (z z1 : zipper (List α) range_impl)
        (v v1 : zip_iterator vec_iterator range_iterator),
        Container.erase z v = some (z1, v1) →
        Container.size z1.lhs_ + 1 = Container.size z.lhs_
        ∧ Container.size z1.rhs_ = Container.size z.rhs_) := by
  refine ⟨?_, ?_, ?_, ?_⟩
  · intro a b z0 z hz hr
    obtain ⟨rfl, hs⟩ := zip_ok a b z0 hz
    have key : Container.size z.lhs_ = Container.size z.rhs_ := by
      induction hr with
      | init => exact hs
      | erase z2 z3 v v1 _ he ih =>
        have := erase_zip_vec_vec z2 z3 v v1 he
        simp only [vec_size] at ih ⊢
        omega
    exact ⟨key, by rw [zipper_size, key]⟩
  · intro r s z0 z hz hr
    obtain ⟨rfl, hs⟩ := zip_ok r s z0 hz
    have key : Container.size z.lhs_ = Container.size z.rhs_ := by
      induction hr with
      | init => exact hs
      | erase z2 z3 v v1 _ he ih =>
        rw [erase_zip_range_range z2 z3 v v1 he]
        exact ih
    exact ⟨key, by rw [zipper_size, key]⟩
  · intro a b p fuel hlen hfuel
    exact ⟨_, filter_inplace_of_zip_vec a b p fuel hlen hfuel, by simp [vec_size]⟩
  · intro z z1 v v1 he
    obtain ⟨h1, h2⟩ := erase_zip_vec_range z z1 v v1 he
    exact ⟨by simpa [vec_size] using h1, by rw [h2]⟩

/-- C14, amended, at `zip([1,2], [3,4])` after one `erase` at the begin cursor. -/
theorem erase_keeps_size_invariant_witness :
    Container.size (⟨[2], [4]⟩ : zipper (List Int) (List Int)).lhs_
        = Container.size (⟨[2], [4]⟩ : zipper (List Int) (List Int)).rhs_
    ∧ Container.size (⟨[2], [4]⟩ : zipper (List Int) (List Int))
        = Container.size (⟨[2], [4]⟩ : zipper (List Int) (List Int)).rhs_ :=
  erase_keeps_size_invariant.1 ([1, 2] : List Int) ([3, 4] : List Int) ⟨[1, 2], [3, 4]⟩
    ⟨[2], [4]⟩ (by decide)
    (erase_reachable.erase ⟨[1, 2], [3, 4]⟩ ⟨[2], [4]⟩ ⟨⟨0⟩, ⟨0⟩⟩ ⟨⟨0⟩, ⟨0⟩⟩
      erase_reachable.init rfl)

/-- Stepping a paired cursor steps both inner cursors. -/
theorem advance_zip {I1 I2 : Type} [Iterator I1] [Iterator I2] :
    ∀ (k : Nat) (it : I1) (jt : I2),
      advance k (⟨it, jt⟩ : zip_iterator I1 I2) = ⟨advance k it, advance k jt⟩ := by
  intro k
  induction k with
  | zero => intro it jt; rfl
  | succ k ih => intro it jt; simp only [advance, zip_incr, ih]

/-- Stepping a vector cursor adds to its offset. -/
theorem advance_vec : ∀ (k i : Nat), advance k (⟨i⟩ : vec_iterator) = ⟨i + k⟩ := by
  intro k
  induction k with
  | zero => intro i; rfl
  | succ k ih => intro i; simp only [advance, vec_incr, ih]; congr 1; omega

/-- Stepping a range cursor adds to its counter. -/
theorem advance_range :
    ∀ (k : Nat) (v : Int), advance k (⟨v⟩ : range_iterator) = ⟨v + (k : Int)⟩ := by
  intro k
  induction k with
  | zero => intro v; simp [advance]
  | succ k ih => intro v; simp only [advance, range_incr, ih]; congr 1; push_cast; omega

/-- A vector cursor first reaches `end()` after `size()` steps. -/
theorem first_end_step_vec (xs : List α) : first_end_step xs xs.length := by
  refine ⟨?_, ?_⟩
  · simp [vec_begin, vec_end, advance_vec, vec_eq]
  · intro j hj
    simp only [vec_begin, vec_end, advance_vec, vec_eq, beq_eq_false_iff_ne, ne_eq]
    omega

/-- A range cursor first reaches `end()` after `end_ - begin_` steps. -/
theorem first_end_step_range (r : range_impl) (h : r.begin_ ≤ r.end_) :
    first_end_step r (r.end_ - r.begin_).toNat := by
  refine ⟨?_, ?_⟩
  · simp only [range_begin, range_end, advance_range, range_eq, beq_iff_eq]
    rw [Int.toNat_of_nonneg (by omega)]
    omega
  · intro j hj
    simp only [range_begin, range_end, advance_range, range_eq, beq_eq_false_iff_ne, ne_eq]
    have : (j : Int) < r.end_ - r.begin_ := by omega
    omega

/-- A paired cursor first reaches the paired `end()` at the smaller of the step counts
of its two sides. -/
theorem first_end_step_zipper {T U I1 I2 E1 E2 : Type} [Iterator I1] [Iterator I2]
    [Container T I1 E1] [Container U I2 E2] (l : T) (r : U) (m n : Nat)
    (hl : first_end_step l m) (hr : first_end_step r n) :
    first_end_step (⟨l, r⟩ : zipper T U) (min m n) := by
  obtain ⟨hl1, hl2⟩ := hl
  obtain ⟨hr1, hr2⟩ := hr
  refine ⟨?_, ?_⟩
  · show Iterator.eq (advance (min m n) (⟨Container.begin l, Container.begin r⟩ :
      zip_iterator I1 I2)) ⟨Container.end l, Container.end r⟩ = true
    rw [advance_zip]
    show (Iterator.eq (advance (min m n) (Container.begin l)) (Container.end l)
      || Iterator.eq (advance (min m n) (Container.begin r)) (Container.end r)) = true
    rcases Nat.le_total m n with h | h
    · rw [Nat.min_eq_left h, hl1]
      rfl
    · rw [Nat.min_eq_right h, hr1]
      simp
  · intro j hj
    show Iterator.eq (advance j (⟨Container.begin l, Container.begin r⟩ :
      zip_iterator I1 I2)) ⟨Container.end l, Container.end r⟩ = false
    rw [advance_zip]
    show (Iterator.eq (advance j (Container.begin l)) (Container.end l)
      || Iterator.eq (advance j (Container.begin r)) (Container.end r)) = false
    rw [hl2 j (by omega), hr2 j (by omega)]
    rfl

/-- C16: stepping a paired cursor from the begin positions of two sides that reach their
own ends after `m` and `n` steps, the first step count at which it compares equal to the
paired end cursor is `min(m, n)`, for any shapes and in particular for vectors of lengths
`m` and `n` and for a vector and a range; a zipped traversal yields the zip of the two
traversals, `min(m, n)` pairs, which for two vectors of equal length is `size()` pairs
`(a[i], b[i])`; and `operator!=` of `zip_iterator` is the negation of `operator==`. -/
theorem zip_iterator_end_step :
    (∀ (T U I1 I2 E1 E2 : Type) [Iterator I1] [Iterator I2] [Container T I1 E1]
        [Container U I2 E2] (l : T) (r : U) (m n : Nat),
        first_end_step l m → first_end_step r n →
        first_end_step (⟨l, r⟩ : zipper T U) (min m n))
    ∧ (∀ (a : List α) (b : List β),
        first_end_step (⟨a, b⟩ : zipper (List α) (List β)) (min a.length b.length))
    ∧ (∀ (a : List α) (r : range_impl), r.begin_ ≤ r.end_ →
        first_end_step (⟨a, r⟩ : zipper (List α) range_impl)
          (min a.length (r.end_ - r.begin_).toNat))
    ∧ (∀ (T U I1 I2 E1 E2 : Type) [Iterator I1] [Iterator I2] [LawfulIterator I1]
        [LawfulIterator I2] [Container T I1 E1] [Container U I2 E2] (l : T) (r : U)
        (fuel : Nat) (l1 : List E1) (l2 : List E2),
        elements fuel l = some l1 → elements fuel r = some l2 →
        elements fuel (⟨l, r⟩ : zipper T U) = some (List.zip l1 l2)
        ∧ (List.zip l1 l2).length = min l1.length l2.length)
    ∧ (∀ (a : List α) (b : List β) (fuel : Nat), a.length < fuel → b.length < fuel →
        elements fuel (⟨a, b⟩ : zipper (List α) (List β)) = some (List.zip a b)
        ∧ (List.zip a b).length = min a.length b.length)
    ∧ (∀ (a : List α) (b : List β) (fuel : Nat), a.length = b.length → a.length < fuel →
        elements fuel (⟨a, b⟩ : zipper (List α) (List β)) = some (List.zip a b)
        ∧ (List.zip a b).length = Container.size (⟨a, b⟩ : zipper (List α) (List β))
        ∧ ∀ (i : Nat) (x : α) (y : β), a[i]? = some x → b[i]? = some y →
            (List.zip a b)[i]? = some (x, y))
    ∧ (∀ (I1 I2 : Type) [Iterator I1] [Iterator I2] (x y : zip_iterator I1 I2),
        Iterator.ne x y = !Iterator.eq x y) := by
  refine ⟨?_, ?_, ?_, ?_, ?_, ?_, ?_⟩
  · intro T U I1 I2 E1 E2 _ _ _ _ l r m n hl hr
    exact first_end_step_zipper l r m n hl hr
  · intro a b
    exact first_end_step_zipper a b _ _ (first_end_step_vec a) (first_end_step_vec b)
  · intro a r hr
    exact first_end_step_zipper a r _ _ (first_end_step_vec a) (first_end_step_range r hr)
  · intro T U I1 I2 E1 E2 _ _ _ _ _ _ l r fuel l1 l2 h1 h2
    exact ⟨elements_zipper ⟨l, r⟩ fuel l1 l2 h1 h2, List.length_zip l1 l2⟩
  · intro a b fuel ha hb
    exact ⟨elements_zipper ⟨a, b⟩ fuel a b (elements_vec a fuel ha) (elements_vec b fuel hb),
      List.length_zip a b⟩
  · intro a b fuel hlen hfuel
    refine ⟨(zip_vec_vec a b fuel hlen hfuel).2, ?_, ?_⟩
    · simp [zipper_size, vec_size, hlen]
    · intro i x y hx hy
      exact List.getElem?_zip_eq_some.mpr ⟨hx, hy⟩
  · intro I1 I2 _ _ x y
    rfl

/-- C16 at the vectors `[1,2,3]` and `[4,5]`: the paired cursor first equals the end
cursor after `2` steps, and the traversal yields the `2` pairs `(1,4)` and `(2,5)`. -/
theorem zip_iterator_end_step_witness :
    first_end_step (⟨[1, 2, 3], [4, 5]⟩ : zipper (List Int) (List Int)) 2
    ∧ elements 4 (⟨[1, 2, 3], [4, 5]⟩ : zipper (List Int) (List Int))
        = some [(1, 4), (2, 5)] :=
  ⟨zip_iterator_end_step.2.1 ([1, 2, 3] : List Int) ([4, 5] : List Int),
    (zip_iterator_end_step.2.2.2.2.1 ([1, 2, 3] : List Int) ([4, 5] : List Int) 4 (by decide)
      (by decide)).1⟩

/-- The loop of `as` in terms of the traversal. -/
theorem as_loop_eq {T I E OutT : Type} [Iterator I] [Container T I E]
    [range_constructible OutT E] (val_ : T) (last : I) :
    ∀ (fuel : Nat) (first : I) (out : OutT), as_loop val_ last fuel first out =
      (elements_from val_ last fuel first).map
        (fun l => l.foldl range_constructible.insert out) := by
  intro fuel
  induction fuel with
  | zero => intro first out; simp [as_loop, elements_from]
  | succ n ih =>
    intro first out
    simp only [as_loop, elements_from]
    split
    · cases Container.deref val_ first with
      | none => simp
      | some v =>
        simp only [ih]
        cases elements_from val_ last n (Iterator.incr first) <;> simp
    · simp

/-- The result of `as` once the traversal of the input is known. -/
theorem as_of_elements {T I E : Type} (OutT : Type) [Iterator I] [Container T I E]
    [range_constructible OutT E] (val_ : T) (fuel : Nat) (l : List E)
    (h : elements fuel val_ = some l) :
    as OutT fuel (iter_on val_)
      = some (l.foldl range_constructible.insert range_constructible.empty) := by
  unfold elements at h
  simp [as, iter_on, as_loop_eq, h]

/-- Taking the values of a list into a vector, in order, appends the list. -/
theorem foldl_insert_vec {E : Type} (l : List E) :
    ∀ out : List E, l.foldl range_constructible.insert out = out ++ l := by
  induction l with
  | nil => intro out; simp
  | cons x l ih =>
    intro out
    rw [List.foldl_cons, ih]
    simp [range_constructible.insert]

/-- A key is absent from a map exactly when no entry carries it. -/
theorem unordered_map_find_none {K V : Type} [DecidableEq K] (m : unordered_map K V) (k : K) :
    m.find k = none ↔ ∀ kv ∈ m.entries, kv.1 ≠ k := by
  simp [unordered_map.find]

/-- Inserting entries with pairwise distinct keys, none of them present, appends them. -/
theorem foldl_insert_distinct {K V : Type} [DecidableEq K] (l : List (K × V)) :
    ∀ m : unordered_map K V, (l.map Prod.fst).Nodup → (∀ kv ∈ l, m.find kv.1 = none) →
      l.foldl range_constructible.insert m = ⟨m.entries ++ l⟩ := by
  induction l with
  | nil => intro m _ _; simp
  | cons x l ih =>
    intro m hnd hnew
    simp only [List.map_cons, List.nodup_cons] at hnd
    have hx : m.find x.1 = none := hnew x (by simp)
    have hins : range_constructible.insert m x = (⟨m.entries ++ [x]⟩ : unordered_map K V) := by
      show m.insert x = _
      simp [unordered_map.insert, hx]
    rw [List.foldl_cons, hins, ih _ hnd.2]
    · simp
    · intro kv hkv
      rw [unordered_map_find_none]
      intro e he
      simp only [List.mem_append, List.mem_singleton] at he
      rcases he with he | he
      · exact (unordered_map_find_none m kv.1).mp (hnew kv (by simp [hkv])) e he
      · subst he
        intro heq
        exact hnd.1 (heq ▸ List.mem_map_of_mem Prod.fst hkv)

/-- C11: for a vector `vs` of length `n` with pairwise distinct elements, converting
`zip(vs, range(n))` with `as<std::unordered_map>()` yields a map with exactly `n` entries
that sends `vs[i]` to `i` for every `i < n` and holds no other key; `[1,2,3]` gives
`{1:0, 2:1, 3:2}`. In general `as<OutT>()` builds `OutT` from exactly the sequence of
values the traversal yields, in order; for a vector as target the result is that
sequence. -/
theorem as_unordered_map :
    (∀ (T I E OutT : Type) [Iterator I] [Container T I E] [range_constructible OutT E]
        (val_ : T) (fuel : Nat) (l : List E), elements fuel val_ = some l →
        as OutT fuel (iter_on val_)
          = some (l.foldl range_constructible.insert range_constructible.empty))
    ∧ (∀ (T I E : Type) [Iterator I] [Container T I E] (val_ : T) (fuel : Nat)
        (l : List E), elements fuel val_ = some l →
        as (List E) fuel (iter_on val_) = some l)
    ∧ (∀ (κ : Type) [select_access_type_for κ] [DecidableEq κ] (vs : List κ) (fuel : Nat),
        vs.Nodup → vs.length < fuel → vs.length < 2 ^ SIZE_BITS →
        ∃ (z : zipper (List κ) range_impl) (m : unordered_map κ Int),
          zip vs (range1 vs.length) = Except.ok z
          ∧ as (unordered_map κ Int) fuel (iter_on z) = some m
          ∧ m.size = vs.length
          ∧ (∀ (i : Nat) (x : κ), vs[i]? = some x → m.find x = some (i : Int))
          ∧ (∀ k : κ, k ∉ vs → m.find k = none))
    ∧ (as (unordered_map Int Int) 4
          (iter_on (⟨[1, 2, 3], range1 3⟩ : zipper (List Int) range_impl))).map
        (fun m => (m.size, m.find 1, m.find 2, m.find 3, m.find 0))
        = some (3, some 0, some 1, some 2, none) := by
  refine ⟨?_, ?_, ?_, by decide⟩
  · intro T I E OutT _ _ _ val_ fuel l h
    exact as_of_elements OutT val_ fuel l h
  · intro T I E _ _ val_ fuel l h
    rw [as_of_elements (List E) val_ fuel l h, foldl_insert_vec]
    rfl
  · intro κ _ _ vs fuel hnd hfuel hsz
    obtain ⟨hz, hel⟩ := zip_vec_range vs fuel hfuel hsz
    have hfst : (List.zip vs ((List.range vs.length).map (fun (k : Nat) => (k : Int)))).map
        Prod.fst = vs := List.map_fst_zip _ _ (by simp)
    have hfold := foldl_insert_distinct
      (List.zip vs ((List.range vs.length).map (fun (k : Nat) => (k : Int))))
      (⟨[]⟩ : unordered_map κ Int) (by rw [hfst]; exact hnd)
      (by intro kv _; simp [unordered_map.find])
    refine ⟨_, ⟨List.zip vs ((List.range vs.length).map (fun (k : Nat) => (k : Int)))⟩, hz,
      ?_, ?_, ?_, ?_⟩
    · rw [as_of_elements (unordered_map κ Int) _ fuel _ hel]
      show some (List.foldl range_constructible.insert (⟨[]⟩ : unordered_map κ Int) _) = _
      rw [hfold]
      simp
    · simp [unordered_map.size]
    · intro i x hx
      have hlt : i < vs.length := by
        rcases Nat.lt_or_ge i vs.length with h | h
        · exact h
        · rw [List.getElem?_eq_none h] at hx; simp at hx
      unfold unordered_map.find
      rw [find?_of_index (fun kv : κ × Int => kv.1 == x) _ i (x, (i : Int))]
      · rfl
      · rw [List.getElem?_zip_eq_some]
        simp [hx, List.getElem?_range hlt]
      · simp
      · intro j y hj hy
        rw [List.getElem?_zip_eq_some] at hy
        have hne : vs[j]? ≠ vs[i]? :=
          List.nodup_iff_getElem?_ne_getElem?.mp hnd j i hj hlt
        rw [hy.1, hx] at hne
        simpa using hne
    · intro k hk
      rw [unordered_map_find_none]
      intro kv hkv heq
      have : kv.1 ∈ vs := by
        rw [← hfst]
        exact List.mem_map_of_mem Prod.fst hkv
      exact hk (heq ▸ this)

/-- C11 at `zip([1,2,3], range(3))`, the conversion test of `main`. -/
theorem as_unordered_map_witness :
    ∃ (z : zipper (List Int) range_impl) (m : unordered_map Int Int),
      zip ([1, 2, 3] : List Int) (range1 ([1, 2, 3] : List Int).length) = Except.ok z
      ∧ as (unordered_map Int Int) 4 (iter_on z) = some m
      ∧ m.size = ([1, 2, 3] : List Int).length
      ∧ (∀ (i : Nat) (x : Int), ([1, 2, 3] : List Int)[i]? = some x →
          m.find x = some (i : Int))
      ∧ (∀ k : Int, k ∉ ([1, 2, 3] : List Int) → m.find k = none) :=
  as_unordered_map.2.2.1 Int [1, 2, 3] 4 (by decide) (by decide) (by decide)

end claims_inplace

end itertools
